import Mathlib

/-!
# Verification of the TechCrunch crawler (`function_app.py`)

A shallow embedding of the crawler's core logic:

* a model of the Python `datetime` library as used by the source
  (timezone-aware instants, `fromisoformat`, `isoformat`, `astimezone`,
  `strptime("%B %d, %Y")`);
* a model of the BeautifulSoup document tree and of the accessors the
  source uses (`find`, `find_all`, `get_text`, `.string`, `find_parent`);
* a model of `json.loads` over an inductive JSON value type;
* a model of CPython's `urllib.parse.urlparse`/`urljoin` (following the
  CPython 3.10 implementation of `urlsplit`, `_splitparams`, `urlunsplit`
  and `urljoin`);
* the crawler's own functions, translated line by line from
  `src/function_app.py`: `is_article_url`, `normalize_link`,
  `get_article_links`, `get_meta_datetime`, `get_ldjson_datetime`,
  `get_time_tag_datetime`, `get_text_datetime_fallback`,
  `parse_human_datetime`, `get_ldjson_article_body`, `extract_paragraphs`,
  `parse_article`, `is_today_kst`, `crawl_today`.

Strings are modelled as `List Char`.  Character-class predicates
(whitespace, digits) use the ASCII subset, which is what every input in
the claims exercises.  The timezone `KST` is modelled as the fixed UTC+9
offset (the source itself falls back to `timezone(timedelta(hours=9))`
when `ZoneInfo("Asia/Seoul")` is unavailable, and Asia/Seoul has been at
fixed UTC+9 for all instants relevant here).
-/

namespace Crawler

/-! ## Basic character and list utilities -/

/-- ASCII decimal digit test (`\d` for ASCII input). -/
def isDigitCh (c : Char) : Bool := '0' ≤ c && c ≤ '9'

/-- Numeric value of a digit character. -/
def digitVal (c : Char) : Nat := c.toNat - 48

/-- Whitespace stripped by Python `str.strip()` / matched by `\s`
(ASCII subset: space, tab, LF, CR, VT, FF). -/
def isPyWs (c : Char) : Bool :=
  c == ' ' || c == '\t' || c == '\n' || c == '\r' || c == '\x0b' || c == '\x0c'

/-- Python `str.strip()` on a character list. -/
def pyStrip (l : List Char) : List Char :=
  ((l.dropWhile isPyWs).reverse.dropWhile isPyWs).reverse

/-- Join character lists with a separator (Python `sep.join(pieces)`). -/
def joinSep (sep : List Char) : List (List Char) → List Char
  | [] => []
  | [s] => s
  | s :: rest => s ++ sep ++ joinSep sep rest

/-- Substring test: Python `pat in s`. -/
def containsSub (pat : List Char) : List Char → Bool
  | [] => pat.isEmpty
  | c :: rest => pat.isPrefixOf (c :: rest) || containsSub pat rest

/-! ## Calendar arithmetic

Day numbering for the proleptic Gregorian calendar (day 0 = 1970-01-01),
used to model Python `datetime` timezone conversion.  `Int.ediv` is
Euclidean division, which agrees with floor division for the positive
divisors used here. -/

def isLeapYear (y : Int) : Bool :=
  (y % 4 == 0 && y % 100 != 0) || y % 400 == 0

def daysInMonth (y : Int) (m : Nat) : Nat :=
  if m = 2 then (if isLeapYear y then 29 else 28)
  else if m = 4 ∨ m = 6 ∨ m = 9 ∨ m = 11 then 30
  else 31

/-- A (year, month, day) triple representable by a Python `date`. -/
def validYMD (y : Int) (m d : Nat) : Prop :=
  1 ≤ y ∧ y ≤ 9999 ∧ 1 ≤ m ∧ m ≤ 12 ∧ 1 ≤ d ∧ d ≤ daysInMonth y m

instance (y : Int) (m d : Nat) : Decidable (validYMD y m d) := by
  unfold validYMD; infer_instance

/-- Days since 1970-01-01 of a civil date (Gregorian, floor-division form). -/
def daysFromCivil (y : Int) (m d : Nat) : Int :=
  let y' : Int := if m ≤ 2 then y - 1 else y
  let era : Int := y' / 400
  let yoe : Int := y' - era * 400
  let mp : Int := if 2 < m then (m : Int) - 3 else (m : Int) + 9
  let doy : Int := (153 * mp + 2) / 5 + (d : Int) - 1
  let doe : Int := yoe * 365 + yoe / 4 - yoe / 100 + doy
  era * 146097 + doe - 719468

/-- Civil date of a day number (inverse of `daysFromCivil`). -/
def civilFromDays (z0 : Int) : Int × Nat × Nat :=
  let z : Int := z0 + 719468
  let era : Int := z / 146097
  let doe : Int := z - era * 146097
  let yoe : Int := (doe - doe / 1460 + doe / 36524 - doe / 146096) / 365
  let y : Int := yoe + era * 400
  let doy : Int := doe - (365 * yoe + yoe / 4 - yoe / 100)
  let mp : Int := (5 * doy + 2) / 153
  let d : Int := doy - (153 * mp + 2) / 5 + 1
  let m : Int := if mp < 10 then mp + 3 else mp - 9
  (if m ≤ 2 then y + 1 else y, m.toNat, d.toNat)

/-! ## The Python `datetime` model -/

/-- A Python `datetime` value: civil fields plus an optional UTC offset in
minutes (`tzoffset = none` models a timezone-naive datetime).
Sub-second precision is not modelled (every timestamp in the claims has
zero microseconds). -/
structure PyDateTime where
  year : Int
  month : Nat
  day : Nat
  hour : Nat
  minute : Nat
  second : Nat
  tzoffset : Option Int
deriving DecidableEq, Repr

/-- The fixed UTC+9 offset used for KST (in minutes). -/
def kstOffset : Int := 540

/-- Minutes since epoch of the instant denoted by a datetime (seconds
ignored; all offsets used are whole minutes).  A naive datetime is
interpreted with a UTC local clock, modelling the deployment host's
timezone for Python's naive-`astimezone` behaviour. -/
def PyDateTime.instantMinutes (dt : PyDateTime) : Int :=
  daysFromCivil dt.year dt.month dt.day * 1440 + dt.hour * 60 + dt.minute
    - dt.tzoffset.getD 0

/-- Python `dt.astimezone(tz)` for a fixed-offset `tz` of `off` minutes. -/
def PyDateTime.astimezone (dt : PyDateTime) (off : Int) : PyDateTime :=
  let t : Int := dt.instantMinutes + off
  let days : Int := t / 1440
  let rem : Nat := (t % 1440).toNat
  let c := civilFromDays days
  ⟨c.1, c.2.1, c.2.2, rem / 60, rem % 60, dt.second, some off⟩

/-- Python `dt.date()` as a (year, month, day) triple. -/
def PyDateTime.dateTriple (dt : PyDateTime) : Int × Nat × Nat :=
  (dt.year, dt.month, dt.day)

/-! ## `datetime.isoformat` -/

def natDigits2 (n : Nat) : List Char :=
  [Char.ofNat (48 + n / 10 % 10), Char.ofNat (48 + n % 10)]

def natDigits4 (n : Nat) : List Char :=
  [Char.ofNat (48 + n / 1000 % 10), Char.ofNat (48 + n / 100 % 10),
   Char.ofNat (48 + n / 10 % 10), Char.ofNat (48 + n % 10)]

/-- Python `datetime.isoformat()` for a datetime with zero microseconds:
`YYYY-MM-DDTHH:MM:SS` plus `±HH:MM` when the datetime is aware. -/
def isoformatChars (dt : PyDateTime) : List Char :=
  natDigits4 dt.year.toNat ++ '-' :: natDigits2 dt.month ++ '-' :: natDigits2 dt.day
    ++ 'T' :: natDigits2 dt.hour ++ ':' :: natDigits2 dt.minute ++ ':' :: natDigits2 dt.second
    ++ (match dt.tzoffset with
        | none => []
        | some off =>
          (if off < 0 then '-' else '+')
            :: natDigits2 (off.natAbs / 60) ++ ':' :: natDigits2 (off.natAbs % 60))

def isoformat (dt : PyDateTime) : String := String.mk (isoformatChars dt)

/-! ## `datetime.fromisoformat`

Model of CPython 3.9/3.10 `datetime.fromisoformat`, which accepts exactly
the formats `datetime.isoformat` emits: `YYYY-MM-DD`, optionally followed
by a single arbitrary separator character and `HH[:MM[:SS]]`, optionally
followed by an offset `±HH:MM`.  Fractional seconds and offset seconds
are not modelled (no timestamp in the claims carries them); a literal
`"Z"` suffix is not accepted, which is why the source replaces `"Z"` with
`"+00:00"` before parsing. -/

def parseDigit (c : Char) : Option Nat :=
  if isDigitCh c then some (digitVal c) else none

def parse2d : List Char → Option (Nat × List Char)
  | a :: b :: rest => do pure (10 * (← parseDigit a) + (← parseDigit b), rest)
  | _ => none

def parseTzPart : List Char → Option (Option Int)
  | [] => some none
  | s :: rest =>
    if s = '+' ∨ s = '-' then
      match parse2d rest with
      | some (oh, ':' :: r2) =>
        match parse2d r2 with
        | some (om, []) =>
          if oh ≤ 23 ∧ om ≤ 59 then
            some (some ((if s = '-' then -1 else 1) * (oh * 60 + om : Nat)))
          else none
        | _ => none
      | _ => none
    else none

def parseTimePart (cs : List Char) : Option (Nat × Nat × Nat × Option Int) := do
  match parse2d cs with
  | some (h, rest) =>
    if h ≤ 23 then
      match rest with
      | ':' :: r2 =>
        match parse2d r2 with
        | some (mi, r3) =>
          if mi ≤ 59 then
            match r3 with
            | ':' :: r4 =>
              match parse2d r4 with
              | some (s, r5) =>
                if s ≤ 59 then do
                  let tz ← parseTzPart r5
                  pure (h, mi, s, tz)
                else none
              | none => none
            | _ => do
              let tz ← parseTzPart r3
              pure (h, mi, 0, tz)
          else none
        | none => none
      | _ => do
        let tz ← parseTzPart rest
        pure (h, 0, 0, tz)
    else none
  | none => none

def fromisoformatChars : List Char → Option PyDateTime
  | y1 :: y2 :: y3 :: y4 :: '-' :: m1 :: m2 :: '-' :: d1 :: d2 :: rest => do
    let a ← parseDigit y1
    let b ← parseDigit y2
    let c ← parseDigit y3
    let d ← parseDigit y4
    let y : Nat := 1000 * a + 100 * b + 10 * c + d
    let mo : Nat := 10 * (← parseDigit m1) + (← parseDigit m2)
    let dy : Nat := 10 * (← parseDigit d1) + (← parseDigit d2)
    if 1 ≤ y ∧ 1 ≤ mo ∧ mo ≤ 12 ∧ 1 ≤ dy ∧ dy ≤ daysInMonth (y : Int) mo then
      match rest with
      | [] => pure ⟨y, mo, dy, 0, 0, 0, none⟩
      | _sep :: timecs => do
        let (h, mi, s, tz) ← parseTimePart timecs
        pure ⟨y, mo, dy, h, mi, s, tz⟩
    else none
  | _ => none

/-- Python `s.replace("Z", "+00:00")`. -/
def replaceZ : List Char → List Char
  | [] => []
  | c :: rest =>
    if c = 'Z' then '+' :: '0' :: '0' :: ':' :: '0' :: '0' :: replaceZ rest
    else c :: replaceZ rest

/-- `datetime.fromisoformat(x.replace("Z", "+00:00"))`, the parsing idiom
used by every timestamp strategy in the source. -/
def fromIsoZ (s : List Char) : Option PyDateTime :=
  fromisoformatChars (replaceZ s)

/-! ## The document model (BeautifulSoup)

A parsed HTML page is a tree of element and text nodes.  The root node
plays the role of the `BeautifulSoup` object, whose own name
(`"[document]"`) never matches a tag search, so every search operation
below works on strict descendants, as `soup.find`/`tag.find_all` do. -/

inductive Node where
  | elem (tag : String) (attrs : List (String × String)) (children : List Node)
  | text (s : String)
deriving Repr

def Node.tag? : Node → Option String
  | .elem t _ _ => some t
  | .text _ => none

/-- Attribute lookup, Python `tag.get(k)` / `tag[k]`. -/
def Node.attr? : Node → String → Option String
  | .elem _ attrs _, k => (attrs.find? (fun p => p.1 == k)).map (·.2)
  | .text _, _ => none

def Node.childNodes : Node → List Node
  | .elem _ _ cs => cs
  | .text _ => []

mutual

/-- A node followed by its descendants, in document (preorder) order. -/
def Node.selfAndDescendants : Node → List Node
  | .text s => [.text s]
  | .elem t a cs => .elem t a cs :: descList cs

def descList : List Node → List Node
  | [] => []
  | c :: cs => c.selfAndDescendants ++ descList cs

end

/-- Strict descendants of a node, in document order. -/
def Node.descendants (n : Node) : List Node := descList n.childNodes

mutual

/-- A node's (path, node) pairs: itself (empty path) and every descendant
with its child-index path, in document order. -/
def Node.selfAndDescendantsPaths : Node → List (List Nat × Node)
  | .text s => [([], .text s)]
  | .elem t a cs => ([], .elem t a cs) :: pathChildren 0 cs

def pathChildren : Nat → List Node → List (List Nat × Node)
  | _, [] => []
  | i, c :: cs =>
    (c.selfAndDescendantsPaths.map (fun q => (i :: q.1, q.2))) ++ pathChildren (i + 1) cs

end

/-- Strict descendants with their paths, in document order. -/
def Node.descendantsPaths (n : Node) : List (List Nat × Node) :=
  pathChildren 0 n.childNodes

/-- The node at a child-index path. -/
def Node.get? : Node → List Nat → Option Node
  | n, [] => some n
  | .elem _ _ cs, i :: p =>
    match cs.get? i with
    | some c => c.get? p
    | none => none
  | .text _, _ :: _ => none

mutual

/-- The strings of all descendant text nodes, in document order
(BeautifulSoup `tag.strings`; includes `script` contents, as
`html.parser` keeps them as plain string children). -/
def Node.textPieces : Node → List String
  | .text s => [s]
  | .elem _ _ cs => piecesList cs

def piecesList : List Node → List String
  | [] => []
  | c :: cs => c.textPieces ++ piecesList cs

end

/-- BeautifulSoup `get_text(sep, strip=True)`: each string stripped,
empty results dropped, survivors joined with `sep`. -/
def Node.getTextStrip (sep : String) (n : Node) : List Char :=
  joinSep sep.toList ((n.textPieces.map (fun s => pyStrip s.toList)).filter (· ≠ []))

/-- BeautifulSoup `tag.string`: defined when the node is a text node or
has exactly one child whose `.string` is defined. -/
def Node.string? : Node → Option String
  | .text s => some s
  | .elem _ _ [c] => c.string?
  | .elem _ _ _ => none

/-- `soup.find_all(t)` (document order). -/
def findAllTag (doc : Node) (t : String) : List Node :=
  doc.descendants.filter (fun n => n.tag? == some t)

/-- `soup.find(t)`. -/
def findTag (doc : Node) (t : String) : Option Node :=
  (findAllTag doc t).head?

/-! ## The JSON model (`json.loads`)

Numbers are modelled as integers: a JSON number with a fraction or
exponent makes the enclosing `json.loads` call fail in this model, and
the source treats any failing block as "skip this script".  Duplicate
object keys resolve to the last occurrence, as Python `dict` does. -/

inductive JsonValue where
  | null
  | bool (b : Bool)
  | num (n : Int)
  | str (s : String)
  | arr (xs : List JsonValue)
  | obj (fields : List (String × JsonValue))
deriving Repr

/-- Python `d.get(k)` on a parsed JSON object (last duplicate wins). -/
def JsonValue.objGet : JsonValue → String → Option JsonValue
  | .obj fs, k => (fs.reverse.find? (fun p => p.1 == k)).map (·.2)
  | _, _ => none

/-- Python truthiness of a parsed JSON value. -/
def JsonValue.truthy : JsonValue → Bool
  | .null => false
  | .bool b => b
  | .num n => n != 0
  | .str s => !(s == "")
  | .arr xs => !xs.isEmpty
  | .obj fs => !fs.isEmpty

def JsonValue.isDict : JsonValue → Bool
  | .obj _ => true
  | _ => false

def jsonWsCh (c : Char) : Bool := c == ' ' || c == '\t' || c == '\n' || c == '\r'

def hexVal? (c : Char) : Option Nat :=
  if isDigitCh c then some (digitVal c)
  else if 'a' ≤ c ∧ c ≤ 'f' then some (c.toNat - 87)
  else if 'A' ≤ c ∧ c ≤ 'F' then some (c.toNat - 55)
  else none

/-- JSON string contents after the opening quote: escape sequences
decoded, unescaped control characters rejected (strict mode). -/
def jStringRest (acc : List Char) : List Char → Option (String × List Char)
  | [] => none
  | '"' :: rest => some (String.mk acc.reverse, rest)
  | '\\' :: e :: rest =>
    match e with
    | '"' => jStringRest ('"' :: acc) rest
    | '\\' => jStringRest ('\\' :: acc) rest
    | '/' => jStringRest ('/' :: acc) rest
    | 'b' => jStringRest ('\x08' :: acc) rest
    | 'f' => jStringRest ('\x0c' :: acc) rest
    | 'n' => jStringRest ('\n' :: acc) rest
    | 'r' => jStringRest ('\r' :: acc) rest
    | 't' => jStringRest ('\t' :: acc) rest
    | 'u' =>
      match rest with
      | h1 :: h2 :: h3 :: h4 :: rest2 => do
        let a ← hexVal? h1
        let b ← hexVal? h2
        let c ← hexVal? h3
        let d ← hexVal? h4
        jStringRest (Char.ofNat (4096 * a + 256 * b + 16 * c + d) :: acc) rest2
      | _ => none
    | _ => none
  | c :: rest =>
    if c.toNat < 32 then none else jStringRest (c :: acc) rest

/-- Integer part of a JSON number (sign and digits, `0` not followed by
more digits). -/
def jNumber : List Char → Option (Int × List Char)
  | '-' :: rest =>
    match jNumber rest with
    | some (n, r) => some (-n, r)
    | none => none
  | '0' :: rest =>
    if (rest.head?.elim false fun c => isDigitCh c || c == '.' || c == 'e' || c == 'E') then none
    else some (0, rest)
  | c :: rest =>
    if isDigitCh c then
      let ds := (c :: rest).takeWhile isDigitCh
      let r := (c :: rest).dropWhile isDigitCh
      if (r.head?.elim false fun x => x == '.' || x == 'e' || x == 'E') then none
      else some ((ds.foldl (fun a d => 10 * a + digitVal d) 0 : Nat), r)
    else none
  | [] => none

mutual

def jValue : Nat → List Char → Option (JsonValue × List Char)
  | 0, _ => none
  | fuel + 1, cs0 =>
    let cs := cs0.dropWhile jsonWsCh
    match cs with
    | '{' :: rest =>
      match (rest.dropWhile jsonWsCh) with
      | '}' :: r2 => some (.obj [], r2)
      | _ => jObjItems fuel rest []
    | '[' :: rest =>
      match (rest.dropWhile jsonWsCh) with
      | ']' :: r2 => some (.arr [], r2)
      | _ => jArrItems fuel rest []
    | '"' :: rest => (jStringRest [] rest).map (fun p => (.str p.1, p.2))
    | 't' :: 'r' :: 'u' :: 'e' :: rest => some (.bool true, rest)
    | 'f' :: 'a' :: 'l' :: 's' :: 'e' :: rest => some (.bool false, rest)
    | 'n' :: 'u' :: 'l' :: 'l' :: rest => some (.null, rest)
    | _ => (jNumber cs).map (fun p => (.num p.1, p.2))

def jObjItems : Nat → List Char → List (String × JsonValue) →
    Option (JsonValue × List Char)
  | 0, _, _ => none
  | fuel + 1, cs, acc =>
    match (cs.dropWhile jsonWsCh) with
    | '"' :: rest => do
      let (k, r1) ← jStringRest [] rest
      match (r1.dropWhile jsonWsCh) with
      | ':' :: r2 => do
        let (v, r3) ← jValue fuel r2
        match (r3.dropWhile jsonWsCh) with
        | ',' :: r4 => jObjItems fuel r4 ((k, v) :: acc)
        | '}' :: r4 => some (.obj ((k, v) :: acc).reverse, r4)
        | _ => none
      | _ => none
    | _ => none

def jArrItems : Nat → List Char → List JsonValue → Option (JsonValue × List Char)
  | 0, _, _ => none
  | fuel + 1, cs, acc => do
    let (v, r1) ← jValue fuel cs
    match (r1.dropWhile jsonWsCh) with
    | ',' :: r2 => jArrItems fuel r2 (v :: acc)
    | ']' :: r2 => some (.arr (v :: acc).reverse, r2)
    | _ => none

end

/-- Python `json.loads`, in the modelled JSON fragment. -/
def jsonLoads (s : String) : Option JsonValue :=
  let cs := s.toList
  match jValue (2 * cs.length + 2) cs with
  | some (v, rest) => if rest.dropWhile jsonWsCh = [] then some v else none
  | none => none

/-! ## URL parsing and joining (`urllib.parse`)

A model of CPython 3.10's `urlsplit`, `_splitparams`, `urlparse`,
`urlunsplit`, `urlunparse` and `urljoin`, restricted to what the source
exercises: `allow_fragments` is always true, and the host checks beyond
the IPv6 bracket-mismatch `ValueError` (`_checknetloc`'s NFKC check) are
not modelled.  A raised `ValueError` is modelled as `none`. -/

/-- The bytes `urlsplit` removes everywhere (tab, CR, LF). -/
def unsafeUrlByte (c : Char) : Bool := c == '\t' || c == '\r' || c == '\n'

def removeUnsafe (l : List Char) : List Char := l.filter (fun c => !unsafeUrlByte c)

/-- `scheme_chars`: ASCII letters, digits, `+`, `-`, `.`. -/
def isSchemeChar (c : Char) : Bool :=
  c.isAlpha || isDigitCh c || c == '+' || c == '-' || c == '.'

/-- Characters ending the netloc (`_splitnetloc` stops at the first). -/
def netlocStop (c : Char) : Bool := c == '/' || c == '?' || c == '#'

structure UrlSplitResult where
  scheme : List Char
  netloc : List Char
  path : List Char
  query : List Char
  fragment : List Char
deriving DecidableEq, Repr

/-- Fragment, query and path of the text following the netloc:
split at the first `#`, then the first `?`. -/
def splitFragQuery (scheme netloc rest2 : List Char) : UrlSplitResult :=
  let u3 := rest2.takeWhile (fun c => !(c == '#'))
  let fragment := (rest2.dropWhile (fun c => !(c == '#'))).drop 1
  let path := u3.takeWhile (fun c => !(c == '?'))
  let query := (u3.dropWhile (fun c => !(c == '?'))).drop 1
  ⟨scheme, netloc, path, query, fragment⟩

/-- `urlsplit(url, scheme=ds)`: remove unsafe bytes; extract a scheme
when a `:` at position ≥ 1 is preceded by a letter-led run of scheme
characters (lowercasing it); extract the netloc after `//` up to the
first `/`, `?` or `#`, raising on mismatched IPv6 brackets; then split
off fragment and query. -/
def urlsplitChars (url0 ds0 : List Char) : Option UrlSplitResult :=
  let url := removeUnsafe url0
  let ds := removeUnsafe ds0
  let pre := url.takeWhile (fun c => !(c == ':'))
  let schemeFound : Bool := decide (pre.length < url.length) && !pre.isEmpty
      && (pre.head?.elim false Char.isAlpha) && pre.all isSchemeChar
  let scheme := if schemeFound then pre.map Char.toLower else ds
  let rest := if schemeFound then url.drop (pre.length + 1) else url
  match rest with
  | '/' :: '/' :: r2 =>
    let netloc := r2.takeWhile (fun c => !netlocStop c)
    let rest2 := r2.dropWhile (fun c => !netlocStop c)
    if (netloc.contains '[' && !netloc.contains ']')
        || (netloc.contains ']' && !netloc.contains '[') then none
    else some (splitFragQuery scheme netloc rest2)
  | _ => some (splitFragQuery scheme [] rest)

structure UrlParseResult where
  scheme : List Char
  netloc : List Char
  path : List Char
  params : List Char
  query : List Char
  fragment : List Char
deriving DecidableEq, Repr

/-- The characters strictly after the last `/`. -/
def lastSlashSuffix (p : List Char) : List Char :=
  (p.reverse.takeWhile (fun c => !(c == '/'))).reverse

/-- `_splitparams(url)` under its caller's guard `';' in url`: when the
path has a `/`, cut at the first `;` after the last `/` (if any);
otherwise cut at the first `;`. -/
def splitParamsCore (p : List Char) : List Char × List Char :=
  if '/' ∈ p then
    let b := lastSlashSuffix p
    if ';' ∈ b then
      (p.take (p.length - b.length) ++ b.takeWhile (fun c => !(c == ';')),
       (b.dropWhile (fun c => !(c == ';'))).drop 1)
    else (p, [])
  else
    (p.takeWhile (fun c => !(c == ';')), (p.dropWhile (fun c => !(c == ';'))).drop 1)

def splitParams (p : List Char) : List Char × List Char :=
  if ';' ∈ p then splitParamsCore p else (p, [])

/-- `urlparse(url, scheme=ds)`. -/
def urlparseChars (url ds : List Char) : Option UrlParseResult :=
  (urlsplitChars url ds).map (fun r =>
    let pp := splitParams r.path
    ⟨r.scheme, r.netloc, pp.1, pp.2, r.query, r.fragment⟩)

/-- `urlunsplit((scheme, netloc, url, query, fragment))`. -/
def urlunsplitChars (scheme netloc url query fragment : List Char) : List Char :=
  let url1 :=
    if !netloc.isEmpty || url.take 2 = ['/', '/'] then
      '/' :: '/' :: netloc ++ (if !url.isEmpty && !(url.head? == some '/') then '/' :: url else url)
    else url
  let url2 := if !scheme.isEmpty then scheme ++ ':' :: url1 else url1
  let url3 := if !query.isEmpty then url2 ++ '?' :: query else url2
  if !fragment.isEmpty then url3 ++ '#' :: fragment else url3

/-- `urlunparse`: re-attach params to the last path segment, then unsplit. -/
def urlunparseChars (scheme netloc path params query fragment : List Char) : List Char :=
  urlunsplitChars scheme netloc (if !params.isEmpty then path ++ ';' :: params else path)
    query fragment

/-- `urllib.parse.uses_relative` (CPython 3.10). -/
def usesRelative : List (List Char) :=
  ["".toList, "ftp".toList, "http".toList, "gopher".toList, "nntp".toList,
   "imap".toList, "wais".toList, "file".toList, "https".toList, "shttp".toList,
   "mms".toList, "prospero".toList, "rtsp".toList, "rtspu".toList, "sftp".toList,
   "svn".toList, "svn+ssh".toList, "ws".toList, "wss".toList]

/-- `urllib.parse.uses_netloc` (CPython 3.10). -/
def usesNetloc : List (List Char) :=
  ["".toList, "ftp".toList, "http".toList, "gopher".toList, "nntp".toList,
   "telnet".toList, "imap".toList, "wais".toList, "file".toList, "mms".toList,
   "https".toList, "shttp".toList, "snews".toList, "prospero".toList,
   "rtsp".toList, "rtspu".toList, "rsync".toList, "svn".toList,
   "svn+ssh".toList, "sftp".toList, "nfs".toList, "git".toList,
   "git+ssh".toList, "ws".toList, "wss".toList]

/-- Python `str.split('/')`. -/
def splitOnSlash : List Char → List (List Char)
  | [] => [[]]
  | c :: rest =>
    let r := splitOnSlash rest
    if c = '/' then [] :: r
    else
      match r with
      | s :: tail => (c :: s) :: tail
      | [] => [[c]]

/-- `segments[1:-1] = filter(None, segments[1:-1])`. -/
def filterMiddle (l : List (List Char)) : List (List Char) :=
  match l with
  | [] => []
  | [a] => [a]
  | a :: rest =>
    match rest.getLast?, rest.dropLast with
    | some z, mid => a :: (mid.filter (fun s => !s.isEmpty)) ++ [z]
    | none, _ => [a]

/-- The dot-segment resolution loop of `urljoin` (`..` pops, `.` skips;
popping an empty stack is ignored). -/
def resolveSegs : List (List Char) → List (List Char) → List (List Char)
  | [], acc => acc
  | s :: rest, acc =>
    if s = ['.', '.'] then resolveSegs rest acc.dropLast
    else if s = ['.'] then resolveSegs rest acc
    else resolveSegs rest (acc ++ [s])

/-- `urljoin(base, url)` (CPython 3.10). -/
def urljoinChars (base url : List Char) : Option (List Char) := do
  if base.isEmpty then return url
  if url.isEmpty then return base
  let b ← urlparseChars base []
  let u ← urlparseChars url b.scheme
  if ¬(u.scheme = b.scheme ∧ usesRelative.contains u.scheme) then
    return url
  if usesNetloc.contains u.scheme ∧ ¬u.netloc.isEmpty then
    return urlunparseChars u.scheme u.netloc u.path u.params u.query u.fragment
  let netloc := if usesNetloc.contains u.scheme then b.netloc else u.netloc
  if u.path.isEmpty ∧ u.params.isEmpty then
    let query := if u.query.isEmpty then b.query else u.query
    return urlunparseChars u.scheme netloc b.path b.params query u.fragment
  let baseParts0 := splitOnSlash b.path
  let baseParts :=
    if ¬(baseParts0.getLast? = some ([] : List Char)) then baseParts0.dropLast else baseParts0
  let segments :=
    if u.path.head? = some '/' then splitOnSlash u.path
    else filterMiddle (baseParts ++ splitOnSlash u.path)
  let resolved0 := resolveSegs segments []
  let resolved :=
    if segments.getLast? = some ['.'] ∨ segments.getLast? = some ['.', '.'] then
      resolved0 ++ [([] : List Char)]
    else resolved0
  let joined := joinSep ['/'] resolved
  let path := if joined.isEmpty then ['/'] else joined
  return urlunparseChars u.scheme netloc path u.params u.query u.fragment


/-- The path/params rejoining that `urlunparse` performs. -/
def rejoinParams (p pr : List Char) : List Char :=
  if pr.isEmpty then p else p ++ ';' :: pr

/-- The leading-slash fix `urlunsplit` applies when a netloc is present. -/
def fixPath (u : List Char) : List Char :=
  if !u.isEmpty && !(u.head? == some '/') then '/' :: u else u

/-- The scheme of the crawl's base URL. -/
def httpsChars : List Char := ['h', 't', 't', 'p', 's']

/-! ## Link classification and discovery
(`function_app.py` lines 73-111) -/

def CATEGORY_URL : String := "https://techcrunch.com/category/artificial-intelligence/"

/-- `re.search(r"/20\d{2}/\d{2}/", path)` at the current position. -/
def datedAt : List Char → Bool
  | '/' :: '2' :: '0' :: a :: b :: '/' :: c :: d :: '/' :: _ =>
    isDigitCh a && isDigitCh b && isDigitCh c && isDigitCh d
  | _ => false

/-- `re.search(r"/20\d{2}/\d{2}/", path)` as a Boolean. -/
def hasDatedSegment : List Char → Bool
  | [] => false
  | c :: rest => datedAt (c :: rest) || hasDatedSegment rest

/-- `is_article_url(href)`: the parsed netloc contains
`"techcrunch.com"` or is empty, and the parsed path contains a
`/20YY/MM/` segment; a `ValueError` from `urlparse` is caught and
yields `False`. -/
def is_article_url (href : String) : Bool :=
  match urlparseChars href.toList [] with
  | none => false
  | some u =>
    (containsSub "techcrunch.com".toList u.netloc || u.netloc.isEmpty)
      && hasDatedSegment u.path

/-- `normalize_link(href) = urljoin(CATEGORY_URL, href)`; `none` models a
propagated `ValueError`. -/
def normalize_link (href : String) : Option String :=
  (urljoinChars CATEGORY_URL.toList href.toList).map (fun l => String.mk l)

/-- `links.add(...)` guarded by `is_article_url`, on the insertion-ordered
model of the Python set (iteration order of the real `set` is
unspecified; every property claimed of discovery is order-insensitive,
so an order-preserving deduplicated list models it). -/
def insertLink (ls : List String) (x : String) : List String :=
  if x ∈ ls then ls else ls ++ [x]

def addIfArticle (ls : List String) (href : String) : Option (List String) :=
  if is_article_url href then (normalize_link href).map (insertLink ls) else some ls

/-- `h3.find("a", href=True)`. -/
def firstAnchorWithHref (h3 : Node) : Option Node :=
  (h3.descendants.filter (fun n => n.tag? == some "a" && (n.attr? "href").isSome)).head?

/-- `soup.find_all("a", href=True)`. -/
def anchorsWithHref (doc : Node) : List Node :=
  doc.descendants.filter (fun n => n.tag? == some "a" && (n.attr? "href").isSome)

/-- Pass 1 of `get_article_links`: the first href-carrying anchor of
every `h3`. -/
def linksPass1 : List Node → List String → Option (List String)
  | [], ls => some ls
  | h3 :: rest, ls =>
    match firstAnchorWithHref h3 with
    | some a =>
      match a.attr? "href" with
      | some href => do linksPass1 rest (← addIfArticle ls href)
      | none => linksPass1 rest ls
    | none => linksPass1 rest ls

/-- Pass 2 of `get_article_links`: every anchor, stopping once the set
reaches `limit`. -/
def linksPass2 (limit : Nat) : List Node → List String → Option (List String)
  | [], ls => some ls
  | a :: rest, ls =>
    match a.attr? "href" with
    | some href => do
      let ls2 ← addIfArticle ls href
      if limit ≤ ls2.length then some ls2 else linksPass2 limit rest ls2
    | none => linksPass2 limit rest ls

/-- `get_article_links(category_url, limit)` on the fetched category
page: h3 pass, then (when still short of `limit`) the all-anchors pass,
then `list(links)[:limit]`. -/
def get_article_links (doc : Node) (limit : Nat) : Option (List String) := do
  let ls1 ← linksPass1 (findAllTag doc "h3") []
  let ls2 ←
    if ls1.length < limit then linksPass2 limit (anchorsWithHref doc) ls1
    else pure ls1
  pure (ls2.take limit)

/-! ## Timestamp strategies (`function_app.py` lines 144-190) -/

/-- `get_meta_datetime(soup, prop)`: the first `meta` tag with
`property == prop` (else the first with `name == prop`); if it has a
truthy `content`, ISO-parse it with the `"Z"` replacement; any parse
failure or missing tag yields `None`. -/
def get_meta_datetime (doc : Node) (prop : String) : Option PyDateTime :=
  let tag :=
    (doc.descendants.filter
        (fun n => n.tag? == some "meta" && n.attr? "property" == some prop)).head?
      <|>
    (doc.descendants.filter
        (fun n => n.tag? == some "meta" && n.attr? "name" == some prop)).head?
  match tag with
  | some t =>
    match t.attr? "content" with
    | some c => if c ≠ "" then fromIsoZ c.toList else none
    | none => none
  | none => none

/-- The `script type="application/ld+json"` blocks of a page. -/
def ldjsonScripts (doc : Node) : List Node :=
  doc.descendants.filter
    (fun n => n.tag? == some "script" && n.attr? "type" == some "application/ld+json")

/-- `json.loads(s.string or "")` wrapped as `data if isinstance(data, list)
else [data]`; `none` when the block's JSON is malformed. -/
def scriptCandidates (n : Node) : Option (List JsonValue) :=
  match jsonLoads ((n.string?).getD "") with
  | some (.arr xs) => some xs
  | some v => some [v]
  | none => none

/-- `isinstance(obj, dict) and obj.get("@type") in {"NewsArticle",
"Article", "BlogPosting"}`. -/
def ldTypeOk (o : JsonValue) : Bool :=
  o.isDict &&
    (match o.objGet "@type" with
     | some (.str t) => t == "NewsArticle" || t == "Article" || t == "BlogPosting"
     | _ => false)

/-- The value of `dp = obj.get("datePublished") or obj.get("dateCreated")`
when it is truthy (`none` models both "absent" and "falsy"). -/
def dpTruthy (o : JsonValue) : Option JsonValue :=
  let dp : Option JsonValue :=
    match o.objGet "datePublished" with
    | some v => if v.truthy then some v else o.objGet "dateCreated"
    | none => o.objGet "dateCreated"
  match dp with
  | some v => if v.truthy then some v else none
  | none => none

/-- One script block's contribution to `get_ldjson_datetime`: the first
type-matching object with a truthy `dp` determines the result; a parse
exception there (non-string `dp`, or `fromisoformat` failing) aborts the
whole block via the `except: continue`, which is the same outcome as the
block having no matching object. -/
def scriptDatetime (xs : List JsonValue) : Option PyDateTime :=
  match xs.find? (fun o => ldTypeOk o && (dpTruthy o).isSome) with
  | some o =>
    match dpTruthy o with
    | some (.str s) => fromIsoZ s.toList
    | _ => none
  | none => none

/-- `get_ldjson_datetime(soup)`: first script block that yields a value. -/
def get_ldjson_datetime (doc : Node) : Option PyDateTime :=
  go (ldjsonScripts doc)
where
  go : List Node → Option PyDateTime
    | [] => none
    | s :: rest =>
      match scriptCandidates s with
      | none => go rest
      | some xs =>
        match scriptDatetime xs with
        | some d => some d
        | none => go rest

/-! ### The human-date heuristic (`parse_human_datetime`)

Model of `re.search(r"(January|...|December)\s+\d{1,2},\s+\d{4}", text)`
followed by `datetime.strptime(m.group(0), "%B %d, %Y")`. -/

def monthTable : List (List Char × Nat) :=
  [("January".toList, 1), ("February".toList, 2), ("March".toList, 3),
   ("April".toList, 4), ("May".toList, 5), ("June".toList, 6),
   ("July".toList, 7), ("August".toList, 8), ("September".toList, 9),
   ("October".toList, 10), ("November".toList, 11), ("December".toList, 12)]

/-- Match one month-name alternative at the current position (the names
are pairwise non-prefix, so at most one matches). -/
def matchMonthAt (cs : List Char) : Option (Nat × List Char) :=
  (monthTable.find? (fun p => p.1.isPrefixOf cs)).map
    (fun p => (p.2, cs.drop p.1.length))

/-- Match `\s+` (greedy; the following regex atoms never match
whitespace, so no backtracking into the run is possible). -/
def matchWs1 : List Char → Option (List Char)
  | c :: rest => if isPyWs c then some (rest.dropWhile isPyWs) else none
  | [] => none

/-- Match `\d{1,2},`: two digits then a comma, else one digit then a
comma (the greedy-then-backtrack order of `\d{1,2}` before a literal). -/
def matchDayComma (cs : List Char) : Option (Nat × List Char) :=
  (match cs with
   | a :: b :: ',' :: rest =>
     if isDigitCh a && isDigitCh b then some (10 * digitVal a + digitVal b, rest) else none
   | _ => none)
  <|>
  (match cs with
   | a :: ',' :: rest => if isDigitCh a then some (digitVal a, rest) else none
   | _ => none)

/-- Match `\d{4}` (no anchor: trailing characters are ignored). -/
def matchYear4 : List Char → Option Nat
  | a :: b :: c :: d :: _ =>
    if isDigitCh a && isDigitCh b && isDigitCh c && isDigitCh d then
      some (1000 * digitVal a + 100 * digitVal b + 10 * digitVal c + digitVal d)
    else none
  | _ => none

/-- The full pattern at one starting position. -/
def matchHumanAt (cs : List Char) : Option (Nat × Nat × Nat) := do
  let (m, r1) ← matchMonthAt cs
  let r2 ← matchWs1 r1
  let (d, r3) ← matchDayComma r2
  let r4 ← matchWs1 r3
  let y ← matchYear4 r4
  pure (m, d, y)

/-- `re.search`: leftmost starting position that matches. -/
def searchHuman : List Char → Option (Nat × Nat × Nat)
  | [] => none
  | c :: rest => matchHumanAt (c :: rest) <|> searchHuman rest

/-- `parse_human_datetime(text)`: on a regex match, `strptime` validates
the calendar date (day in range for the month, year ≥ 1) and the result
is midnight UTC; an invalid date returns `None` (the search is not
resumed). -/
def parse_human_datetime (text : List Char) : Option PyDateTime :=
  match searchHuman text with
  | none => none
  | some (m, d, y) =>
    if 1 ≤ y ∧ 1 ≤ d ∧ d ≤ daysInMonth (y : Int) m then
      some ⟨(y : Int), m, d, 0, 0, 0, some 0⟩
    else none

/-- `get_time_tag_datetime(soup)`: the first `time` element; prefer its
truthy `datetime` attribute (ISO parse), falling back to the
human-date parse of its visible text when the attribute is absent,
empty or unparseable; `None` when there is no `time` element or the
fallback also finds nothing. -/
def get_time_tag_datetime (doc : Node) : Option PyDateTime :=
  match findTag doc "time" with
  | none => none
  | some t =>
    let attrRes : Option PyDateTime :=
      match t.attr? "datetime" with
      | some v => if v ≠ "" then fromIsoZ v.toList else none
      | none => none
    match attrRes with
    | some d => some d
    | none =>
      if t.getTextStrip "" ≠ [] then parse_human_datetime (t.getTextStrip " ")
      else none

/-- `get_text_datetime_fallback(soup)`. -/
def get_text_datetime_fallback (doc : Node) : Option PyDateTime :=
  parse_human_datetime (doc.getTextStrip " ")

/-! ## Body strategies (`function_app.py` lines 192-216) -/

/-- One script block's contribution to `get_ldjson_article_body`: the
`articleBody` of the first type-matching object whose `articleBody` is
truthy, returned as the raw JSON value (the source returns it without
checking that it is a string). -/
def scriptBody (xs : List JsonValue) : Option JsonValue :=
  match xs.find? (fun o =>
      ldTypeOk o && ((o.objGet "articleBody").elim false JsonValue.truthy)) with
  | some o => o.objGet "articleBody"
  | none => none

/-- `get_ldjson_article_body(soup)`. -/
def get_ldjson_article_body (doc : Node) : Option JsonValue :=
  go (ldjsonScripts doc)
where
  go : List Node → Option JsonValue
    | [] => none
    | s :: rest =>
      match scriptCandidates s with
      | none => go rest
      | some xs =>
        match scriptBody xs with
        | some b => some b
        | none => go rest

def badParentTags : List String := ["aside", "figcaption", "nav", "footer"]

/-- The proper ancestors of the node at `path`, outermost first
(`find_parent` searches these, all the way to the root). -/
def ancestorsOf (doc : Node) (path : List Nat) : List Node :=
  ((List.range path.length).map (fun k => path.take k)).filterMap doc.get?

/-- `extract_paragraphs(soup)`: paragraphs of the first `article` element
(or of the whole document), skipping any with an `aside`/`figcaption`/
`nav`/`footer` ancestor, keeping those whose stripped text has length at
least 2, joined with blank lines in document order. -/
def extract_paragraphs (doc : Node) : List Char :=
  let nodes := doc.descendantsPaths
  let containerPath : List Nat :=
    match nodes.find? (fun q => q.2.tag? == some "article") with
    | some q => q.1
    | none => []
  let ps := nodes.filter (fun q =>
    q.2.tag? == some "p" && containerPath.isPrefixOf q.1 && !(q.1 == containerPath))
  let good := ps.filter (fun q =>
    ((ancestorsOf doc q.1).filter
        (fun a => (a.tag?).elim false (fun t => badParentTags.contains t))).isEmpty)
  let texts := (good.map (fun q => q.2.getTextStrip " ")).filter (fun t => 2 ≤ t.length)
  joinSep ['\n', '\n'] texts

/-! ## `parse_article` and the crawl loop -/

/-- The record built by `parse_article` (the `fetch` and
`BeautifulSoup` steps are the model's boundary: the function takes the
already-parsed document). -/
structure ArticleRecord where
  url : String
  title : String
  published_utc : Option String
  published_kst : Option String
  body : String
deriving DecidableEq, Repr

/-- The four-strategy timestamp chain of `parse_article` (Python `or`
over the strategies, i.e. first non-`None` wins — `datetime` objects are
always truthy). -/
def resolve_published (doc : Node) : Option PyDateTime :=
  get_meta_datetime doc "article:published_time"
    <|> get_ldjson_datetime doc
    <|> get_time_tag_datetime doc
    <|> get_text_datetime_fallback doc

/-- `parse_article(url)` on the fetched document.  Returns `none` when
the body step raises: `get_ldjson_article_body` can return a non-string
truthy JSON value, on which `.strip()` raises `AttributeError` (caught
by the crawl loop, dropping the article). -/
def parse_article (url : String) (doc : Node) : Option ArticleRecord :=
  let title_text : String :=
    match findTag doc "h1" with
    | some h => String.mk (h.getTextStrip "")
    | none => ""
  let published_dt := resolve_published doc
  let published_utc := published_dt.map (fun d => isoformat (d.astimezone 0))
  let published_kst := published_dt.map (fun d => isoformat (d.astimezone kstOffset))
  match get_ldjson_article_body doc with
  | some (.str s) =>
    some ⟨url, title_text, published_utc, published_kst, String.mk (pyStrip s.toList)⟩
  | some _ => none
  | none =>
    some ⟨url, title_text, published_utc, published_kst,
          String.mk (pyStrip (extract_paragraphs doc))⟩

/-- `is_today_kst(dt, today_kst)`: `False` for a falsy (`None`) datetime,
else compare calendar dates after converting `dt` to KST (`today_kst`
is used as-is). -/
def is_today_kst (dt : Option PyDateTime) (today : PyDateTime) : Bool :=
  match dt with
  | none => false
  | some d => (d.astimezone kstOffset).dateTriple = today.dateTriple

/-- The crawl loop's trace: one extraction attempt per discovered link,
each followed by `time.sleep(sleep_sec)` (the float delay is modelled as
a rational; its numeric value is opaque to the claims). -/
inductive CrawlEvent where
  | attempt (url : String)
  | sleepFor (sec : ℚ)
deriving DecidableEq, Repr

/-- The body of `crawl_today`'s `try`: keep the article when its
`published_kst` is truthy, re-parses, and `is_today_kst` holds; a
`fromisoformat` failure there raises and the article is dropped, the
same outcome as a non-matching date. -/
def keepArticle (today : PyDateTime) (art : ArticleRecord) : Option ArticleRecord :=
  match art.published_kst with
  | some s =>
    if s ≠ "" then
      match fromisoformatChars s.toList with
      | some d => if is_today_kst (some d) today then some art else none
      | none => none
    else none
  | none => none

/-- The per-link step of `crawl_today`: `env url` models
`parse_article(url)` including its fetch — `none` is any exception
raised while fetching, parsing or extracting that one article. -/
def crawlStep (env : String → Option ArticleRecord) (today : PyDateTime)
    (url : String) : Option ArticleRecord :=
  (env url).bind (keepArticle today)

/-- `crawl_today`'s loop over the discovered links: accumulates the kept
articles in order and emits the attempt/sleep trace. -/
def crawl_today (env : String → Option ArticleRecord) (today : PyDateTime)
    (links : List String) (sleep_sec : ℚ) : List ArticleRecord × List CrawlEvent :=
  match links with
  | [] => ([], [])
  | url :: rest =>
    let r := crawl_today env today rest sleep_sec
    ((crawlStep env today url).toList ++ r.1,
     CrawlEvent.attempt url :: CrawlEvent.sleepFor sleep_sec :: r.2)

/-! ## Concrete example pages used by the witnesses -/

/-- An article page carrying both a parseable
`meta property="article:published_time"` tag and JSON-LD whose
`datePublished` conflicts with it. -/
def conflictDoc : Node :=
  .elem "html" [] [
    .elem "head" [] [
      .elem "meta" [("property", "article:published_time"),
                    ("content", "2025-09-10T05:00:00Z")] [],
      .elem "script" [("type", "application/ld+json")]
        [.text "\x7b\"@type\":\"NewsArticle\",\"datePublished\":\"2025-09-09T01:02:03+00:00\"\x7d"]],
    .elem "body" [] [
      .elem "h1" [] [.text "Title"],
      .elem "article" [] [.elem "p" [] [.text "Some body text here."]]]]

/-- The datetime carried by `conflictDoc`'s meta tag. -/
def metaDT : PyDateTime := ⟨2025, 9, 10, 5, 0, 0, some 0⟩

/-- The datetime carried by `conflictDoc`'s JSON-LD block. -/
def ldDT : PyDateTime := ⟨2025, 9, 9, 1, 2, 3, some 0⟩

/-- A page with no timestamp signal of any kind. -/
def noTsDoc : Node :=
  .elem "html" [] [
    .elem "body" [] [
      .elem "h1" [] [.text "A headline"],
      .elem "article" [] [.elem "p" [] [.text "Plain body text with no date in it."]]]]

/-- A page whose first `time` element has a malformed `datetime`
attribute but a parseable visible text. -/
def badTimeAttrDoc : Node :=
  .elem "html" [] [
    .elem "body" [] [
      .elem "time" [("datetime", "yesterday-ish")] [.text "September 10, 2025"]]]

/-- The `time` element of `badTimeAttrDoc`. -/
def badTimeNode : Node := .elem "time" [("datetime", "yesterday-ish")] [.text "September 10, 2025"]

/-! ## Claim C1 -/

/-- **C1.** The timestamp resolver tries meta tag, JSON-LD, `time`
element and full-text heuristic in this fixed order and returns the
first strategy that yields a value; in particular, whenever the meta
strategy yields a value, that value is the result, even when JSON-LD
yields a conflicting one. -/
theorem C1_strategy_order :
    (∀ doc d, get_meta_datetime doc "article:published_time" = some d →
       resolve_published doc = some d) ∧
    (∀ doc d, get_meta_datetime doc "article:published_time" = none →
       get_ldjson_datetime doc = some d → resolve_published doc = some d) ∧
    (∀ doc d, get_meta_datetime doc "article:published_time" = none →
       get_ldjson_datetime doc = none → get_time_tag_datetime doc = some d →
       resolve_published doc = some d) ∧
    (∀ doc, get_meta_datetime doc "article:published_time" = none →
       get_ldjson_datetime doc = none → get_time_tag_datetime doc = none →
       resolve_published doc = get_text_datetime_fallback doc) ∧
    (∀ doc d d2, get_meta_datetime doc "article:published_time" = some d →
       get_ldjson_datetime doc = some d2 → d2 ≠ d → resolve_published doc = some d) := by
  refine ⟨?_, ?_, ?_, ?_, ?_⟩ <;>
    intro doc <;> intros <;>
    simp_all [resolve_published, Option.orElse]

/-- Witness for C1 on `conflictDoc`: both strategies yield, they
conflict, and the meta value wins. -/
theorem C1_witness : resolve_published conflictDoc = some metaDT :=
  C1_strategy_order.2.2.2.2 conflictDoc metaDT ldDT (by decide) (by decide) (by decide)

/-! ## Claim C5 -/

/-- **C5.** When all four timestamp strategies fail, the resolver
returns `none` (not an error), both timestamp fields of the extracted
record are absent, and the article is excluded by the published-today
filter for every target date. -/
theorem C5_all_strategies_fail (doc : Node) (url : String)
    (h1 : get_meta_datetime doc "article:published_time" = none)
    (h2 : get_ldjson_datetime doc = none)
    (h3 : get_time_tag_datetime doc = none)
    (h4 : get_text_datetime_fallback doc = none) :
    resolve_published doc = none ∧
    (∀ rec, parse_article url doc = some rec →
       rec.published_utc = none ∧ rec.published_kst = none ∧
       ∀ today, keepArticle today rec = none) := by
  have hres : resolve_published doc = none := by
    simp [resolve_published, h1, h2, h3, h4, Option.orElse]
  refine ⟨hres, ?_⟩
  intro rec hrec
  unfold parse_article at hrec
  rw [hres] at hrec
  have hfields : rec.published_utc = none ∧ rec.published_kst = none := by
    rcases hbody : get_ldjson_article_body doc with _ | v
    · rw [hbody] at hrec
      simp only [Option.map_none] at hrec
      cases hrec; exact ⟨rfl, rfl⟩
    · rw [hbody] at hrec
      cases v <;> simp only [Option.map_none] at hrec <;> first
        | (cases hrec; exact ⟨rfl, rfl⟩)
        | cases hrec
  refine ⟨hfields.1, hfields.2, ?_⟩
  intro today
  unfold keepArticle
  rw [hfields.2]

/-- Witness for C5 on `noTsDoc`. -/
theorem C5_witness :
    resolve_published noTsDoc = none ∧
    (∀ rec, parse_article "u" noTsDoc = some rec →
       rec.published_utc = none ∧ rec.published_kst = none ∧
       ∀ today, keepArticle today rec = none) :=
  C5_all_strategies_fail noTsDoc "u" (by decide) (by decide) (by decide) (by decide)

/-! ## Claim C10 -/

/-- **C10.** The `time`-element strategy falls back to parsing the
element's visible text (via the month-name regex) both when the
`datetime` attribute is absent and when it is present but fails
ISO-8601 parsing; it is absent only when that fallback also fails (or
the text is empty). -/
theorem C10_time_tag_fallback (doc : Node) (t : Node)
    (hfind : findTag doc "time" = some t) :
    (∀ v, t.attr? "datetime" = some v → fromIsoZ v.toList = none →
       get_time_tag_datetime doc =
         (if t.getTextStrip "" ≠ [] then parse_human_datetime (t.getTextStrip " ")
          else none)) ∧
    (t.attr? "datetime" = none →
       get_time_tag_datetime doc =
         (if t.getTextStrip "" ≠ [] then parse_human_datetime (t.getTextStrip " ")
          else none)) := by
  constructor
  · intro v hv hparse
    unfold get_time_tag_datetime
    rw [hfind]
    dsimp only
    rw [hv]
    by_cases hempty : v = ""
    · subst hempty; simp
    · simp only [String.toList] at hparse
      simp [hempty, hparse]
  · intro hv
    unfold get_time_tag_datetime
    rw [hfind]
    dsimp only
    rw [hv]

/-- Witness for C10 on `badTimeAttrDoc`: the attribute is present but
malformed and the strategy still recovers the date from the text. -/
theorem C10_witness :
    get_time_tag_datetime badTimeAttrDoc =
      (if badTimeNode.getTextStrip "" ≠ [] then
         parse_human_datetime (badTimeNode.getTextStrip " ")
       else none) ∧
    get_time_tag_datetime badTimeAttrDoc = some ⟨2025, 9, 10, 0, 0, 0, some 0⟩ :=
  ⟨(C10_time_tag_fallback badTimeAttrDoc badTimeNode rfl).1 "yesterday-ish" rfl (by decide),
   by decide⟩

/-! ## Claim C6 -/

/-- **C6.** The crawl loop keeps exactly the per-link successes, in
discovery order (`filterMap` over the links); an exception on one
article (`env u = none`) removes only that article; and every attempt —
success or failure — is followed by one `sleep(sleep_sec)`. -/
theorem C6_crawl_isolation (env : String → Option ArticleRecord)
    (today : PyDateTime) (sleep_sec : ℚ) :
    (∀ links, (crawl_today env today links sleep_sec).1 =
       links.filterMap (crawlStep env today)) ∧
    (∀ links, (crawl_today env today links sleep_sec).2 =
       links.flatMap (fun u => [CrawlEvent.attempt u, CrawlEvent.sleepFor sleep_sec])) ∧
    (∀ l1 u l2, env u = none →
       (crawl_today env today (l1 ++ u :: l2) sleep_sec).1 =
       (crawl_today env today (l1 ++ l2) sleep_sec).1) := by
  have h1 : ∀ links, (crawl_today env today links sleep_sec).1 =
      links.filterMap (crawlStep env today) := by
    intro links
    induction links with
    | nil => rfl
    | cons u rest ih =>
      rw [crawl_today, List.filterMap_cons]
      cases h : crawlStep env today u <;> simp [h, ih]
  refine ⟨h1, ?_, ?_⟩
  · intro links
    induction links with
    | nil => rfl
    | cons u rest ih => rw [crawl_today, List.flatMap_cons]; simp [ih]
  · intro l1 u l2 henv
    rw [h1, h1, List.filterMap_append, List.filterMap_append, List.filterMap_cons]
    have hstep : crawlStep env today u = none := by
      unfold crawlStep; rw [henv]; rfl
    rw [hstep]

/-- Witness for C6: a crawl over three links whose middle article
raises is the crawl over the two good links, with a sleep after each of
the three attempts. -/
theorem C6_witness :
    (fun env : String → Option ArticleRecord =>
      (crawl_today env ⟨2025, 9, 10, 0, 0, 0, some 540⟩ ["a", "b", "c"] (7/10)).1 =
      (crawl_today env ⟨2025, 9, 10, 0, 0, 0, some 540⟩ ["a", "c"] (7/10)).1)
      (fun u => if u = "b" then none else some ⟨u, "t", none, none, ""⟩) ∧
    (crawl_today (fun _ => none) ⟨2025, 9, 10, 0, 0, 0, some 540⟩ ["a", "b", "c"] (7/10)).2 =
      ["a", "b", "c"].flatMap (fun u => [CrawlEvent.attempt u, CrawlEvent.sleepFor (7/10)]) :=
  ⟨(C6_crawl_isolation (fun u => if u = "b" then none else some ⟨u, "t", none, none, ""⟩)
      ⟨2025, 9, 10, 0, 0, 0, some 540⟩ (7/10)).2.2 ["a"] "b" ["c"] (by decide),
   (C6_crawl_isolation (fun _ => none) ⟨2025, 9, 10, 0, 0, 0, some 540⟩ (7/10)).2.1
      ["a", "b", "c"]⟩

/-! ## Claim C2 -/

/-- **C2.** `is_article_url(href)` is true exactly when the href parses
and its netloc contains `"techcrunch.com"` or is empty and its path has
a `/20YY/MM/` segment; any parseable href without such a path segment is
rejected; any URL whose netloc contains the domain and whose path has
the segment is accepted with no condition on its scheme; and a
malformed href (a `ValueError` from `urlparse`) yields `False`, not an
error. -/
theorem C2_is_article_url :
    (∀ href : String, is_article_url href = true ↔
       ∃ u, urlparseChars href.toList [] = some u ∧
         (containsSub "techcrunch.com".toList u.netloc = true ∨ u.netloc = []) ∧
         hasDatedSegment u.path = true) ∧
    (∀ href u, urlparseChars href.toList [] = some u →
       hasDatedSegment u.path = false → is_article_url href = false) ∧
    (∀ href u, urlparseChars href.toList [] = some u →
       containsSub "techcrunch.com".toList u.netloc = true →
       hasDatedSegment u.path = true → is_article_url href = true) ∧
    (∀ href, urlparseChars href.toList [] = none → is_article_url href = false) := by
  refine ⟨?_, ?_, ?_, ?_⟩
  · intro href
    unfold is_article_url
    cases h : urlparseChars href.toList [] with
    | none => simp [h]
    | some u =>
      simp only [Bool.and_eq_true, Bool.or_eq_true, List.isEmpty_iff]
      constructor
      · rintro ⟨hn, hp⟩; exact ⟨u, rfl, hn, hp⟩
      · rintro ⟨u2, hu2, hn, hp⟩
        rw [Option.some.injEq] at hu2
        subst hu2
        exact ⟨hn, hp⟩
  · intro href u hu hseg
    unfold is_article_url
    rw [hu]
    simp [hseg]
  · intro href u hu hn hseg
    unfold is_article_url
    rw [hu]
    simp only [Bool.and_eq_true, Bool.or_eq_true]
    exact ⟨Or.inl hn, hseg⟩
  · intro href hu
    unfold is_article_url
    rw [hu]

/-- Witness for C2: a full absolute URL on the domain with a dated path
is accepted (also under a non-web scheme), and concrete hrefs without a
dated path or that fail to parse are rejected. -/
theorem C2_witness :
    is_article_url "https://techcrunch.com/2025/09/10/foo" = true ∧
    is_article_url "ftp://techcrunch.com/2025/09/10/foo" = true ∧
    is_article_url "https://techcrunch.com/about" = false ∧
    is_article_url "http://[::1" = false :=
  ⟨C2_is_article_url.2.2.1 "https://techcrunch.com/2025/09/10/foo"
      ⟨"https".toList, "techcrunch.com".toList, "/2025/09/10/foo".toList, [], [], []⟩
      (by decide) (by decide) (by decide),
   C2_is_article_url.2.2.1 "ftp://techcrunch.com/2025/09/10/foo"
      ⟨"ftp".toList, "techcrunch.com".toList, "/2025/09/10/foo".toList, [], [], []⟩
      (by decide) (by decide) (by decide),
   C2_is_article_url.2.1 "https://techcrunch.com/about"
      ⟨"https".toList, "techcrunch.com".toList, "/about".toList, [], [], []⟩
      (by decide) (by decide),
   C2_is_article_url.2.2.2 "http://[::1" (by decide)⟩

/-! ## The calendar round-trip

`civilFromDays` inverts `daysFromCivil` on every representable date.
This underpins the day-classification claims: `astimezone` decomposes an
instant into days and minute-of-day and rebuilds the civil date with
`civilFromDays`.  The year-of-era recovery is the arithmetic core. -/

theorem leap_iff (y : Int) :
    (isLeapYear y = true) ↔ ((y % 4 = 0 ∧ ¬ y % 100 = 0) ∨ y % 400 = 0) := by
  simp [isLeapYear, Bool.or_eq_true, Bool.and_eq_true, beq_iff_eq, bne_iff_ne]

theorem yoe_recover (yoe doy : Int)
    (hy : 0 ≤ yoe ∧ yoe ≤ 399)
    (hcase : (0 ≤ doy ∧ doy ≤ 364) ∨
             (doy = 365 ∧ (((yoe + 1) % 4 = 0 ∧ ¬ (yoe + 1) % 100 = 0) ∨ yoe = 399))) :
    0 ≤ yoe * 365 + yoe / 4 - yoe / 100 + doy ∧
    yoe * 365 + yoe / 4 - yoe / 100 + doy ≤ 146096 ∧
    (let doe := yoe * 365 + yoe / 4 - yoe / 100 + doy
     (doe - doe / 1460 + doe / 36524 - doe / 146096) / 365 = yoe) := by
  obtain ⟨cc, yy, hsplit, hcc0, hcc1, hyy0, hyy1⟩ :
      ∃ cc yy, yoe = 100 * cc + yy ∧ 0 ≤ cc ∧ cc ≤ 3 ∧ 0 ≤ yy ∧ yy ≤ 99 :=
    ⟨yoe / 100, yoe % 100, by omega, by omega, by omega, by omega, by omega⟩
  obtain ⟨p, s, hps, hp0, hp1, hs0, hs1⟩ :
      ∃ p s, yy = 4 * p + s ∧ 0 ≤ p ∧ p ≤ 24 ∧ 0 ≤ s ∧ s ≤ 3 :=
    ⟨yy / 4, yy % 4, by omega, by omega, by omega, by omega, by omega⟩
  have hb : yoe / 4 = 25 * cc + p := by omega
  have hc : yoe / 100 = cc := by omega
  have hdoy : (0 ≤ doy ∧ doy ≤ 364) ∨
      (doy = 365 ∧ s = 3 ∧ (yy = 99 → cc = 3)) := by
    rcases hcase with h | h
    · exact Or.inl h
    · refine Or.inr ⟨h.1, ?_, ?_⟩
      · rcases h.2 with h2 | h2 <;> omega
      · rcases h.2 with h2 | h2 <;> omega
  clear hcase hy
  have hdoe : yoe * 365 + yoe / 4 - yoe / 100 + doy =
      36524 * cc + 1461 * p + 365 * s + doy := by
    rw [hb, hc]; omega
  rw [hdoe]
  clear hb hc
  have hr1 : (36524 * cc + 1461 * p + 365 * s + doy) / 1460 =
      25 * cc + p + (24 * cc + p + 365 * s + doy) / 1460 := by omega
  have hr2 : (36524 * cc + 1461 * p + 365 * s + doy) / 36524 =
      cc + (1461 * p + 365 * s + doy) / 36524 := by omega
  have he' : (24 * cc + p + 365 * s + doy) / 1460 = 0 ∨
      ((24 * cc + p + 365 * s + doy) / 1460 = 1 ∧ 1460 ≤ 24 * cc + p + 365 * s + doy) := by
    rcases hdoy with h | h <;> omega
  have hf' : (1461 * p + 365 * s + doy) / 36524 = 0 ∨
      ((1461 * p + 365 * s + doy) / 36524 = 1 ∧ 1461 * p + 365 * s + doy = 36524) := by
    rcases hdoy with h | h <;> omega
  have hg' : (36524 * cc + 1461 * p + 365 * s + doy) / 146096 = 0 ∨
      ((36524 * cc + 1461 * p + 365 * s + doy) / 146096 = 1 ∧
        36524 * cc + 1461 * p + 365 * s + doy = 146096) := by
    rcases hdoy with h | h <;> omega
  refine ⟨by rcases hdoy with h | h <;> omega, by rcases hdoy with h | h <;> omega, ?_⟩
  show (36524 * cc + 1461 * p + 365 * s + doy -
      (36524 * cc + 1461 * p + 365 * s + doy) / 1460 +
      (36524 * cc + 1461 * p + 365 * s + doy) / 36524 -
      (36524 * cc + 1461 * p + 365 * s + doy) / 146096) / 365 = yoe
  rw [hr1, hr2]
  clear hr1 hr2 hdoe
  rcases he' with h1 | h1 <;> rcases hf' with h2 | h2 <;> rcases hg' with h3 | h3 <;>
    rcases hdoy with h4 | h4 <;> omega

theorem civil_inverse (era yoe doy : Int)
    (hy : 0 ≤ yoe ∧ yoe ≤ 399)
    (hcase : (0 ≤ doy ∧ doy ≤ 364) ∨
             (doy = 365 ∧ (((yoe + 1) % 4 = 0 ∧ ¬ (yoe + 1) % 100 = 0) ∨ yoe = 399))) :
    civilFromDays (era * 146097 + (yoe * 365 + yoe / 4 - yoe / 100 + doy) - 719468) =
      (let mp := (5 * doy + 2) / 153
       let dd := doy - (153 * mp + 2) / 5 + 1
       let mm := if mp < 10 then mp + 3 else mp - 9
       ((if mm ≤ 2 then era * 400 + yoe + 1 else era * 400 + yoe), mm.toNat, dd.toNat)) := by
  obtain ⟨hA, hB, hC0⟩ := yoe_recover yoe doy hy hcase
  have hC : (yoe * 365 + yoe / 4 - yoe / 100 + doy
      - (yoe * 365 + yoe / 4 - yoe / 100 + doy) / 1460
      + (yoe * 365 + yoe / 4 - yoe / 100 + doy) / 36524
      - (yoe * 365 + yoe / 4 - yoe / 100 + doy) / 146096) / 365 = yoe := hC0
  simp only [civilFromDays]
  have h0 : era * 146097 + (yoe * 365 + yoe / 4 - yoe / 100 + doy) - 719468 + 719468
      = era * 146097 + (yoe * 365 + yoe / 4 - yoe / 100 + doy) := by ring
  rw [h0]
  have hz : (era * 146097 + (yoe * 365 + yoe / 4 - yoe / 100 + doy)) / 146097 = era := by
    omega
  rw [hz]
  have h1 : era * 146097 + (yoe * 365 + yoe / 4 - yoe / 100 + doy) - era * 146097
      = yoe * 365 + yoe / 4 - yoe / 100 + doy := by ring
  rw [h1, hC]
  have h2 : yoe * 365 + yoe / 4 - yoe / 100 + doy - (365 * yoe + yoe / 4 - yoe / 100) = doy := by
    ring
  rw [h2]
  have h3 : yoe + era * 400 = era * 400 + yoe := by ring
  rw [h3]

theorem daysFromCivil_as (y : Int) (m d : Nat) (era yoe : Int)
    (hsp : (if m ≤ 2 then y - 1 else y) = 400 * era + yoe)
    (h0 : 0 ≤ yoe) (h1 : yoe ≤ 399) :
    daysFromCivil y m d = era * 146097 +
      (yoe * 365 + yoe / 4 - yoe / 100 +
        ((153 * (if 2 < m then (m : Int) - 3 else (m : Int) + 9) + 2) / 5 + (d : Int) - 1))
      - 719468 := by
  simp only [daysFromCivil]
  have he : (if m ≤ 2 then y - 1 else y) / 400 = era := by omega
  rw [he]
  have hw : (if m ≤ 2 then y - 1 else y) - era * 400 = yoe := by omega
  rw [hw]

/-- Round-trip: the civil date of the day number of a valid date is that
date again. -/
theorem civil_roundtrip (y : Int) (m d : Nat) (h : validYMD y m d) :
    civilFromDays (daysFromCivil y m d) = (y, m, d) := by
  obtain ⟨hy1, hy2, hm1, hm2, hd1, hd2⟩ := h
  interval_cases m
  · simp only [daysInMonth] at hd2
    norm_num at hd2
    obtain ⟨era, yoe, hsp, h0, h1⟩ : ∃ e w, y - 1 = 400 * e + w ∧ 0 ≤ w ∧ w ≤ 399 :=
      ⟨(y - 1) / 400, (y - 1) % 400, by omega, by omega, by omega⟩
    have hform : daysFromCivil y 1 d =
        era * 146097 + (yoe * 365 + yoe / 4 - yoe / 100 + ((d : Int) + 305)) - 719468 := by
      rw [daysFromCivil_as y 1 d era yoe (by omega) h0 h1]
      omega
    rw [hform, civil_inverse era yoe ((d : Int) + 305) ⟨h0, h1⟩ (Or.inl ⟨by omega, by omega⟩)]
    have hmp : (5 * ((d : Int) + 305) + 2) / 153 = 10 := by omega
    simp only [hmp]
    norm_num [Prod.ext_iff]
    refine ⟨by omega, by omega⟩
  · obtain ⟨era, yoe, hsp, h0, h1⟩ : ∃ e w, y - 1 = 400 * e + w ∧ 0 ≤ w ∧ w ≤ 399 :=
      ⟨(y - 1) / 400, (y - 1) % 400, by omega, by omega, by omega⟩
    have hd2a : (d : Int) ≤ 28 ∨
        ((d : Int) = 29 ∧ ((y % 4 = 0 ∧ ¬ y % 100 = 0) ∨ y % 400 = 0)) := by
      by_cases hl : isLeapYear y = true
      · have hlp := (leap_iff y).mp hl
        simp only [daysInMonth, hl, if_true] at hd2
        norm_num at hd2
        omega
      · simp only [daysInMonth, hl, if_false] at hd2
        norm_num at hd2
        omega
    have hcase : (0 ≤ ((d : Int) + 336) ∧ ((d : Int) + 336) ≤ 364) ∨
        (((d : Int) + 336) = 365 ∧ (((yoe + 1) % 4 = 0 ∧ ¬ (yoe + 1) % 100 = 0) ∨ yoe = 399)) := by
      rcases hd2a with hc | hc
      · exact Or.inl ⟨by omega, by omega⟩
      · refine Or.inr ⟨by omega, ?_⟩
        rcases hc.2 with h2 | h2
        · left; omega
        · right; omega
    have hform : daysFromCivil y 2 d =
        era * 146097 + (yoe * 365 + yoe / 4 - yoe / 100 + ((d : Int) + 336)) - 719468 := by
      rw [daysFromCivil_as y 2 d era yoe (by omega) h0 h1]
      omega
    rw [hform, civil_inverse era yoe ((d : Int) + 336) ⟨h0, h1⟩ hcase]
    have hmp : (5 * ((d : Int) + 336) + 2) / 153 = 11 := by omega
    simp only [hmp]
    norm_num [Prod.ext_iff]
    refine ⟨by omega, by omega⟩
  · simp only [daysInMonth] at hd2
    norm_num at hd2
    obtain ⟨era, yoe, hsp, h0, h1⟩ : ∃ e w, y = 400 * e + w ∧ 0 ≤ w ∧ w ≤ 399 :=
      ⟨y / 400, y % 400, by omega, by omega, by omega⟩
    have hform : daysFromCivil y 3 d =
        era * 146097 + (yoe * 365 + yoe / 4 - yoe / 100 + ((d : Int) - 1)) - 719468 := by
      rw [daysFromCivil_as y 3 d era yoe (by omega) h0 h1]
      omega
    rw [hform, civil_inverse era yoe ((d : Int) - 1) ⟨h0, h1⟩ (Or.inl ⟨by omega, by omega⟩)]
    have hmp : (5 * ((d : Int) - 1) + 2) / 153 = 0 := by omega
    simp only [hmp]
    norm_num [Prod.ext_iff]
    refine ⟨by omega, by omega⟩
  · simp only [daysInMonth] at hd2
    norm_num at hd2
    obtain ⟨era, yoe, hsp, h0, h1⟩ : ∃ e w, y = 400 * e + w ∧ 0 ≤ w ∧ w ≤ 399 :=
      ⟨y / 400, y % 400, by omega, by omega, by omega⟩
    have hform : daysFromCivil y 4 d =
        era * 146097 + (yoe * 365 + yoe / 4 - yoe / 100 + ((d : Int) + 30)) - 719468 := by
      rw [daysFromCivil_as y 4 d era yoe (by omega) h0 h1]
      omega
    rw [hform, civil_inverse era yoe ((d : Int) + 30) ⟨h0, h1⟩ (Or.inl ⟨by omega, by omega⟩)]
    have hmp : (5 * ((d : Int) + 30) + 2) / 153 = 1 := by omega
    simp only [hmp]
    norm_num [Prod.ext_iff]
    refine ⟨by omega, by omega⟩
  · simp only [daysInMonth] at hd2
    norm_num at hd2
    obtain ⟨era, yoe, hsp, h0, h1⟩ : ∃ e w, y = 400 * e + w ∧ 0 ≤ w ∧ w ≤ 399 :=
      ⟨y / 400, y % 400, by omega, by omega, by omega⟩
    have hform : daysFromCivil y 5 d =
        era * 146097 + (yoe * 365 + yoe / 4 - yoe / 100 + ((d : Int) + 60)) - 719468 := by
      rw [daysFromCivil_as y 5 d era yoe (by omega) h0 h1]
      omega
    rw [hform, civil_inverse era yoe ((d : Int) + 60) ⟨h0, h1⟩ (Or.inl ⟨by omega, by omega⟩)]
    have hmp : (5 * ((d : Int) + 60) + 2) / 153 = 2 := by omega
    simp only [hmp]
    norm_num [Prod.ext_iff]
    refine ⟨by omega, by omega⟩
  · simp only [daysInMonth] at hd2
    norm_num at hd2
    obtain ⟨era, yoe, hsp, h0, h1⟩ : ∃ e w, y = 400 * e + w ∧ 0 ≤ w ∧ w ≤ 399 :=
      ⟨y / 400, y % 400, by omega, by omega, by omega⟩
    have hform : daysFromCivil y 6 d =
        era * 146097 + (yoe * 365 + yoe / 4 - yoe / 100 + ((d : Int) + 91)) - 719468 := by
      rw [daysFromCivil_as y 6 d era yoe (by omega) h0 h1]
      omega
    rw [hform, civil_inverse era yoe ((d : Int) + 91) ⟨h0, h1⟩ (Or.inl ⟨by omega, by omega⟩)]
    have hmp : (5 * ((d : Int) + 91) + 2) / 153 = 3 := by omega
    simp only [hmp]
    norm_num [Prod.ext_iff]
    refine ⟨by omega, by omega⟩
  · simp only [daysInMonth] at hd2
    norm_num at hd2
    obtain ⟨era, yoe, hsp, h0, h1⟩ : ∃ e w, y = 400 * e + w ∧ 0 ≤ w ∧ w ≤ 399 :=
      ⟨y / 400, y % 400, by omega, by omega, by omega⟩
    have hform : daysFromCivil y 7 d =
        era * 146097 + (yoe * 365 + yoe / 4 - yoe / 100 + ((d : Int) + 121)) - 719468 := by
      rw [daysFromCivil_as y 7 d era yoe (by omega) h0 h1]
      omega
    rw [hform, civil_inverse era yoe ((d : Int) + 121) ⟨h0, h1⟩ (Or.inl ⟨by omega, by omega⟩)]
    have hmp : (5 * ((d : Int) + 121) + 2) / 153 = 4 := by omega
    simp only [hmp]
    norm_num [Prod.ext_iff]
    refine ⟨by omega, by omega⟩
  · simp only [daysInMonth] at hd2
    norm_num at hd2
    obtain ⟨era, yoe, hsp, h0, h1⟩ : ∃ e w, y = 400 * e + w ∧ 0 ≤ w ∧ w ≤ 399 :=
      ⟨y / 400, y % 400, by omega, by omega, by omega⟩
    have hform : daysFromCivil y 8 d =
        era * 146097 + (yoe * 365 + yoe / 4 - yoe / 100 + ((d : Int) + 152)) - 719468 := by
      rw [daysFromCivil_as y 8 d era yoe (by omega) h0 h1]
      omega
    rw [hform, civil_inverse era yoe ((d : Int) + 152) ⟨h0, h1⟩ (Or.inl ⟨by omega, by omega⟩)]
    have hmp : (5 * ((d : Int) + 152) + 2) / 153 = 5 := by omega
    simp only [hmp]
    norm_num [Prod.ext_iff]
    refine ⟨by omega, by omega⟩
  · simp only [daysInMonth] at hd2
    norm_num at hd2
    obtain ⟨era, yoe, hsp, h0, h1⟩ : ∃ e w, y = 400 * e + w ∧ 0 ≤ w ∧ w ≤ 399 :=
      ⟨y / 400, y % 400, by omega, by omega, by omega⟩
    have hform : daysFromCivil y 9 d =
        era * 146097 + (yoe * 365 + yoe / 4 - yoe / 100 + ((d : Int) + 183)) - 719468 := by
      rw [daysFromCivil_as y 9 d era yoe (by omega) h0 h1]
      omega
    rw [hform, civil_inverse era yoe ((d : Int) + 183) ⟨h0, h1⟩ (Or.inl ⟨by omega, by omega⟩)]
    have hmp : (5 * ((d : Int) + 183) + 2) / 153 = 6 := by omega
    simp only [hmp]
    norm_num [Prod.ext_iff]
    refine ⟨by omega, by omega⟩
  · simp only [daysInMonth] at hd2
    norm_num at hd2
    obtain ⟨era, yoe, hsp, h0, h1⟩ : ∃ e w, y = 400 * e + w ∧ 0 ≤ w ∧ w ≤ 399 :=
      ⟨y / 400, y % 400, by omega, by omega, by omega⟩
    have hform : daysFromCivil y 10 d =
        era * 146097 + (yoe * 365 + yoe / 4 - yoe / 100 + ((d : Int) + 213)) - 719468 := by
      rw [daysFromCivil_as y 10 d era yoe (by omega) h0 h1]
      omega
    rw [hform, civil_inverse era yoe ((d : Int) + 213) ⟨h0, h1⟩ (Or.inl ⟨by omega, by omega⟩)]
    have hmp : (5 * ((d : Int) + 213) + 2) / 153 = 7 := by omega
    simp only [hmp]
    norm_num [Prod.ext_iff]
    refine ⟨by omega, by omega⟩
  · simp only [daysInMonth] at hd2
    norm_num at hd2
    obtain ⟨era, yoe, hsp, h0, h1⟩ : ∃ e w, y = 400 * e + w ∧ 0 ≤ w ∧ w ≤ 399 :=
      ⟨y / 400, y % 400, by omega, by omega, by omega⟩
    have hform : daysFromCivil y 11 d =
        era * 146097 + (yoe * 365 + yoe / 4 - yoe / 100 + ((d : Int) + 244)) - 719468 := by
      rw [daysFromCivil_as y 11 d era yoe (by omega) h0 h1]
      omega
    rw [hform, civil_inverse era yoe ((d : Int) + 244) ⟨h0, h1⟩ (Or.inl ⟨by omega, by omega⟩)]
    have hmp : (5 * ((d : Int) + 244) + 2) / 153 = 8 := by omega
    simp only [hmp]
    norm_num [Prod.ext_iff]
    refine ⟨by omega, by omega⟩
  · simp only [daysInMonth] at hd2
    norm_num at hd2
    obtain ⟨era, yoe, hsp, h0, h1⟩ : ∃ e w, y = 400 * e + w ∧ 0 ≤ w ∧ w ≤ 399 :=
      ⟨y / 400, y % 400, by omega, by omega, by omega⟩
    have hform : daysFromCivil y 12 d =
        era * 146097 + (yoe * 365 + yoe / 4 - yoe / 100 + ((d : Int) + 274)) - 719468 := by
      rw [daysFromCivil_as y 12 d era yoe (by omega) h0 h1]
      omega
    rw [hform, civil_inverse era yoe ((d : Int) + 274) ⟨h0, h1⟩ (Or.inl ⟨by omega, by omega⟩)]
    have hmp : (5 * ((d : Int) + 274) + 2) / 153 = 9 := by omega
    simp only [hmp]
    norm_num [Prod.ext_iff]
    refine ⟨by omega, by omega⟩

/-! ## Claim C4 -/

/-- The spec scenario's article page: a meta publish time of
`2025-09-10T05:00:00Z` and a plain body. -/
def c4doc : Node :=
  .elem "html" [] [
    .elem "head" [] [
      .elem "meta" [("property", "article:published_time"),
                    ("content", "2025-09-10T05:00:00Z")] []],
    .elem "body" [] [
      .elem "h1" [] [.text "Title"],
      .elem "article" [] [.elem "p" [] [.text "Body text."]]]]

theorem replaceZ_append (s t : List Char) :
    replaceZ (s ++ t) = replaceZ s ++ replaceZ t := by
  induction s with
  | nil => rfl
  | cons c rest ih =>
    by_cases h : c = 'Z' <;> simp [replaceZ, h, ih]

/-- **C4.** On the scenario page the extracted record's `published_utc`
is `2025-09-10T05:00:00+00:00` and `published_kst` is the same instant
rendered with a `+09:00` offset and date portion `2025-09-10`; and for
any timestamp text, a `"Z"` suffix parses exactly as an explicit
`"+00:00"` offset does. -/
theorem C4_published_fields :
    (parse_article "u" c4doc).map (fun r => (r.published_utc, r.published_kst)) =
      some (some "2025-09-10T05:00:00+00:00", some "2025-09-10T14:00:00+09:00") ∧
    resolve_published c4doc = some ⟨2025, 9, 10, 5, 0, 0, some 0⟩ ∧
    (PyDateTime.astimezone ⟨2025, 9, 10, 5, 0, 0, some 0⟩ kstOffset).instantMinutes =
      (PyDateTime.astimezone ⟨2025, 9, 10, 5, 0, 0, some 0⟩ 0).instantMinutes ∧
    (PyDateTime.astimezone ⟨2025, 9, 10, 5, 0, 0, some 0⟩ kstOffset).tzoffset = some kstOffset ∧
    (PyDateTime.astimezone ⟨2025, 9, 10, 5, 0, 0, some 0⟩ kstOffset).dateTriple = (2025, 9, 10) ∧
    (∀ s : List Char, fromIsoZ (s ++ ['Z']) = fromIsoZ (s ++ "+00:00".toList)) := by
  refine ⟨by decide, by decide, by decide, by decide, by decide, ?_⟩
  intro s
  unfold fromIsoZ
  rw [replaceZ_append, replaceZ_append,
    show replaceZ ['Z'] = replaceZ "+00:00".toList from rfl]

/-! ## Claim C7 -/

theorem astimezone_dateTriple (dt : PyDateTime) (off : Int) :
    (dt.astimezone off).dateTriple = civilFromDays ((dt.instantMinutes + off) / 1440) := rfl

/-- **C7.** The same-day comparison classifies by calendar date in KST:
for a valid date `D = (y, m, d)` and the following calendar day
`D2 = (y2, m2, d2)` (day numbers differing by one), the instant 23:59
KST on `D` and the instant 00:01 KST on `D2` are 2 minutes apart in
absolute time yet have different KST calendar dates, so no target date
classifies both as today; and an absent timestamp is never today. -/
theorem C7_day_boundary (y y2 : Int) (m d m2 d2 : Nat)
    (hv : validYMD y m d) (hv2 : validYMD y2 m2 d2)
    (hnext : daysFromCivil y2 m2 d2 = daysFromCivil y m d + 1) :
    (PyDateTime.instantMinutes ⟨y2, m2, d2, 0, 1, 0, some kstOffset⟩ -
      PyDateTime.instantMinutes ⟨y, m, d, 23, 59, 0, some kstOffset⟩ = 2) ∧
    (PyDateTime.astimezone ⟨y, m, d, 23, 59, 0, some kstOffset⟩ kstOffset).dateTriple ≠
      (PyDateTime.astimezone ⟨y2, m2, d2, 0, 1, 0, some kstOffset⟩ kstOffset).dateTriple ∧
    (∀ today, ¬(is_today_kst (some ⟨y, m, d, 23, 59, 0, some kstOffset⟩) today = true ∧
       is_today_kst (some ⟨y2, m2, d2, 0, 1, 0, some kstOffset⟩) today = true)) ∧
    (∀ today, is_today_kst none today = false) := by
  have e1 : (PyDateTime.astimezone ⟨y, m, d, 23, 59, 0, some kstOffset⟩ kstOffset).dateTriple
      = (y, m, d) := by
    rw [astimezone_dateTriple]
    have harg : (PyDateTime.instantMinutes ⟨y, m, d, 23, 59, 0, some kstOffset⟩ + kstOffset)
        / 1440 = daysFromCivil y m d := by
      simp only [PyDateTime.instantMinutes, kstOffset, Option.getD]
      omega
    rw [harg, civil_roundtrip y m d hv]
  have e2 : (PyDateTime.astimezone ⟨y2, m2, d2, 0, 1, 0, some kstOffset⟩ kstOffset).dateTriple
      = (y2, m2, d2) := by
    rw [astimezone_dateTriple]
    have harg : (PyDateTime.instantMinutes ⟨y2, m2, d2, 0, 1, 0, some kstOffset⟩ + kstOffset)
        / 1440 = daysFromCivil y2 m2 d2 := by
      simp only [PyDateTime.instantMinutes, kstOffset, Option.getD]
      omega
    rw [harg, civil_roundtrip y2 m2 d2 hv2]
  have hne : (y, m, d) ≠ (y2, m2, d2) := by
    intro hcontra
    simp only [Prod.mk.injEq] at hcontra
    obtain ⟨ha, hb, hc⟩ := hcontra
    subst ha; subst hb; subst hc
    omega
  refine ⟨?_, ?_, ?_, ?_⟩
  · simp only [PyDateTime.instantMinutes, Option.getD]
    omega
  · rw [e1, e2]; exact hne
  · intro today hboth
    obtain ⟨hb1, hb2⟩ := hboth
    simp only [is_today_kst, decide_eq_true_eq] at hb1 hb2
    rw [e1] at hb1
    rw [e2] at hb2
    exact hne (hb1.trans hb2.symm)
  · intro today; rfl

/-- Witness for C7 at 2025-09-10 / 2025-09-11. -/
theorem C7_witness :
    ¬(is_today_kst (some ⟨2025, 9, 10, 23, 59, 0, some kstOffset⟩)
        ⟨2025, 9, 10, 12, 0, 0, some kstOffset⟩ = true ∧
      is_today_kst (some ⟨2025, 9, 11, 0, 1, 0, some kstOffset⟩)
        ⟨2025, 9, 10, 12, 0, 0, some kstOffset⟩ = true) :=
  (C7_day_boundary 2025 2025 9 10 9 11 (by decide) (by decide) (by decide)).2.2.1
    ⟨2025, 9, 10, 12, 0, 0, some kstOffset⟩

/-! ## Claim C3 -/

mutual

theorem mem_selfDesc_trans : ∀ (n m x : Node),
    m ∈ n.selfAndDescendants → x ∈ m.selfAndDescendants → x ∈ n.selfAndDescendants
  | .text s, m, x, hm, hx => by
    simp only [Node.selfAndDescendants, List.mem_singleton] at hm
    subst hm
    exact hx
  | .elem t a cs, m, x, hm, hx => by
    simp only [Node.selfAndDescendants, List.mem_cons] at hm ⊢
    rcases hm with hm | hm
    · subst hm
      simpa only [Node.selfAndDescendants, List.mem_cons] using hx
    · exact Or.inr (mem_descList_trans cs m x hm hx)

theorem mem_descList_trans : ∀ (cs : List Node) (m x : Node),
    m ∈ descList cs → x ∈ m.selfAndDescendants → x ∈ descList cs
  | [], m, x, hm, _ => by simp [descList] at hm
  | c :: rest, m, x, hm, hx => by
    simp only [descList, List.mem_append] at hm ⊢
    rcases hm with hm | hm
    · exact Or.inl (mem_selfDesc_trans c m x hm hx)
    · exact Or.inr (mem_descList_trans rest m x hm hx)

end

/-- Descendant membership is transitive. -/
theorem mem_descendants_trans (doc n x : Node)
    (hn : n ∈ doc.descendants) (hx : x ∈ n.descendants) : x ∈ doc.descendants := by
  unfold Node.descendants at *
  refine mem_descList_trans doc.childNodes n x hn ?_
  cases n with
  | text s => simp [descList] at hx
  | elem t a cs =>
    simp only [Node.selfAndDescendants, List.mem_cons]
    exact Or.inr hx

theorem insertLink_nodup (ls : List String) (x : String) (h : ls.Nodup) :
    (insertLink ls x).Nodup := by
  unfold insertLink
  split
  · exact h
  · next hx => simpa [List.nodup_append, h] using hx

theorem insertLink_sub (ls : List String) (x : String) :
    ls ⊆ insertLink ls x := by
  unfold insertLink
  split
  · exact fun _ h => h
  · exact fun _ h => List.mem_append_left _ h

theorem addIfArticle_nodup (ls ls2 : List String) (href : String)
    (h : ls.Nodup) (hstep : addIfArticle ls href = some ls2) : ls2.Nodup := by
  unfold addIfArticle at hstep
  split at hstep
  · cases hn : normalize_link href with
    | none => rw [hn] at hstep; cases hstep
    | some l =>
      rw [hn] at hstep
      simp only [Option.map_some', Option.some.injEq] at hstep
      subst hstep
      exact insertLink_nodup ls l h
  · cases hstep
    exact h

theorem addIfArticle_false (ls : List String) (href : String)
    (h : is_article_url href = false) : addIfArticle ls href = some ls := by
  simp [addIfArticle, h]

theorem linksPass1_nodup : ∀ (h3s : List Node) (ls ls2 : List String),
    ls.Nodup → linksPass1 h3s ls = some ls2 → ls2.Nodup
  | [], ls, ls2, h, hstep => by
    cases hstep
    exact h
  | h3 :: rest, ls, ls2, h, hstep => by
    unfold linksPass1 at hstep
    split at hstep
    · next a ha =>
      split at hstep
      · next href hhref =>
        simp only [Option.bind_eq_bind] at hstep
        cases hmid : addIfArticle ls href with
        | none => rw [hmid] at hstep; cases hstep
        | some mid =>
          rw [hmid] at hstep
          simp only [Option.some_bind] at hstep
          exact linksPass1_nodup rest mid ls2 (addIfArticle_nodup ls mid href h hmid) hstep
      · exact linksPass1_nodup rest ls ls2 h hstep
    · exact linksPass1_nodup rest ls ls2 h hstep

theorem linksPass2_nodup : ∀ (limit : Nat) (ans : List Node) (ls ls2 : List String),
    ls.Nodup → linksPass2 limit ans ls = some ls2 → ls2.Nodup
  | _, [], ls, ls2, h, hstep => by
    cases hstep
    exact h
  | limit, a :: rest, ls, ls2, h, hstep => by
    unfold linksPass2 at hstep
    split at hstep
    · next href hhref =>
      simp only [Option.bind_eq_bind] at hstep
      cases hmid : addIfArticle ls href with
      | none => rw [hmid] at hstep; cases hstep
      | some mid =>
        rw [hmid] at hstep
        simp only [Option.some_bind] at hstep
        have hmidnd := addIfArticle_nodup ls mid href h hmid
        split at hstep
        · cases hstep
          exact hmidnd
        · exact linksPass2_nodup limit rest mid ls2 hmidnd hstep
    · exact linksPass2_nodup limit rest ls ls2 h hstep

/-- A page with no qualifying hrefs adds nothing in pass 1. -/
theorem linksPass1_noadd : ∀ (h3s : List Node) (ls : List String),
    (∀ h3 ∈ h3s, ∀ a, firstAnchorWithHref h3 = some a →
       ∀ href, a.attr? "href" = some href → is_article_url href = false) →
    linksPass1 h3s ls = some ls
  | [], _, _ => rfl
  | h3 :: rest, ls, hyp => by
    unfold linksPass1
    have htail : linksPass1 rest ls = some ls :=
      linksPass1_noadd rest ls (fun n hn => hyp n (List.mem_cons_of_mem _ hn))
    split
    · next a ha =>
      split
      · next href hhref =>
        have hno : is_article_url href = false :=
          hyp h3 (List.mem_cons_self _ _) a ha href hhref
        simp only [Option.bind_eq_bind, addIfArticle_false ls href hno, Option.some_bind]
        exact htail
      · exact htail
    · exact htail

/-- A page with no qualifying hrefs adds nothing in pass 2 (and the
size check never fires on an empty set when `0 < limit`). -/
theorem linksPass2_noadd : ∀ (limit : Nat) (ans : List Node),
    0 < limit →
    (∀ a ∈ ans, ∀ href, a.attr? "href" = some href → is_article_url href = false) →
    linksPass2 limit ans [] = some []
  | _, [], _, _ => rfl
  | limit, a :: rest, hlim, hyp => by
    unfold linksPass2
    have htail : linksPass2 limit rest [] = some [] :=
      linksPass2_noadd limit rest hlim (fun n hn => hyp n (List.mem_cons_of_mem _ hn))
    split
    · next href hhref =>
      have hno : is_article_url href = false := hyp a (List.mem_cons_self _ _) href hhref
      simp only [Option.bind_eq_bind, addIfArticle_false [] href hno, Option.some_bind]
      rw [if_neg (by simpa using Nat.pos_iff_ne_zero.mp hlim)]
      exact htail
    · exact htail

/-- The first href-carrying anchor of an `h3` of the page is itself an
href-carrying anchor of the page. -/
theorem firstAnchor_mem (doc h3 a : Node)
    (hh3 : h3 ∈ findAllTag doc "h3") (ha : firstAnchorWithHref h3 = some a) :
    a ∈ anchorsWithHref doc := by
  unfold findAllTag at hh3
  unfold firstAnchorWithHref at ha
  have hmem := List.mem_of_mem_filter hh3
  have hfa := List.mem_of_mem_head? ha
  have hfilter := List.mem_of_mem_filter hfa
  have hprop := List.of_mem_filter hfa
  unfold anchorsWithHref
  exact List.mem_filter.mpr ⟨mem_descendants_trans doc h3 a hmem hfilter, hprop⟩

/-- The spec's scenario page: a single `h3`-wrapped dated article link
and no other anchors. -/
def scenarioDoc : Node :=
  .elem "html" [] [
    .elem "body" [] [
      .elem "h3" [] [
        .elem "a" [("href", "/2025/09/10/foo")] [.text "An article"]]]]

/-- **C3.** Discovery never returns more than `limit` entries and never
returns duplicates; a page with no qualifying links yields `[]` rather
than an error; and the scenario page with exactly one `h3`-wrapped dated
anchor yields exactly that one absolute URL (for any positive limit). -/
theorem C3_discovery :
    (∀ doc limit res, get_article_links doc limit = some res →
       res.length ≤ limit ∧ res.Nodup) ∧
    (∀ doc limit,
       (∀ a ∈ anchorsWithHref doc, ∀ href, a.attr? "href" = some href →
          is_article_url href = false) →
       get_article_links doc limit = some []) ∧
    (∀ limit, 1 ≤ limit →
       get_article_links scenarioDoc limit =
         some ["https://techcrunch.com/2025/09/10/foo"]) := by
  refine ⟨?_, ?_, ?_⟩
  · intro doc limit res hres
    unfold get_article_links at hres
    simp only [Option.bind_eq_bind] at hres
    cases h1 : linksPass1 (findAllTag doc "h3") [] with
    | none => rw [h1] at hres; cases hres
    | some ls1 =>
      rw [h1] at hres
      simp only [Option.some_bind] at hres
      have hnd1 : ls1.Nodup := linksPass1_nodup _ [] ls1 List.nodup_nil h1
      split at hres
      · cases h2 : linksPass2 limit (anchorsWithHref doc) ls1 with
        | none => rw [h2] at hres; cases hres
        | some ls2 =>
          rw [h2] at hres
          simp only [Option.some_bind, Option.pure_def, Option.some.injEq] at hres
          subst hres
          exact ⟨by simpa using List.length_take_le limit ls2,
            (linksPass2_nodup limit _ ls1 ls2 hnd1 h2).sublist (List.take_sublist _ _)⟩
      · simp only [Option.some_bind, Option.pure_def, Option.some.injEq] at hres
        subst hres
        exact ⟨by simpa using List.length_take_le limit ls1,
          hnd1.sublist (List.take_sublist _ _)⟩
  · intro doc limit hyp
    have hp1 : linksPass1 (findAllTag doc "h3") [] = some [] :=
      linksPass1_noadd _ [] (fun h3 hh3 a ha href hhref =>
        hyp a (firstAnchor_mem doc h3 a hh3 ha) href hhref)
    unfold get_article_links
    simp only [Option.bind_eq_bind, hp1, Option.some_bind]
    rcases Nat.eq_zero_or_pos limit with hlim | hlim
    · subst hlim
      simp
    · have hp2 : linksPass2 limit (anchorsWithHref doc) [] = some [] :=
        linksPass2_noadd limit _ hlim hyp
      rw [if_pos (by simpa using hlim)]
      simp only [hp2, Option.some_bind, List.take_nil, Option.pure_def]
  · intro limit hlim
    have hp1 : linksPass1 (findAllTag scenarioDoc "h3") [] =
        some ["https://techcrunch.com/2025/09/10/foo"] := by decide
    have hadd : addIfArticle ["https://techcrunch.com/2025/09/10/foo"] "/2025/09/10/foo" =
        some ["https://techcrunch.com/2025/09/10/foo"] := by decide
    have htake : List.take limit ["https://techcrunch.com/2025/09/10/foo"] =
        ["https://techcrunch.com/2025/09/10/foo"] :=
      List.take_of_length_le (by simpa using hlim)
    have hp2 : linksPass2 limit (anchorsWithHref scenarioDoc)
        ["https://techcrunch.com/2025/09/10/foo"] =
        some ["https://techcrunch.com/2025/09/10/foo"] := by
      rw [show anchorsWithHref scenarioDoc =
        [.elem "a" [("href", "/2025/09/10/foo")] [.text "An article"]] from rfl]
      unfold linksPass2
      rw [show Node.attr? (.elem "a" [("href", "/2025/09/10/foo")] [.text "An article"])
        "href" = some "/2025/09/10/foo" from rfl]
      simp only [Option.bind_eq_bind, hadd, Option.some_bind]
      split
      · rfl
      · rfl
    unfold get_article_links
    simp only [Option.bind_eq_bind, hp1, Option.some_bind]
    split
    · simp only [hp2, Option.some_bind, Option.pure_def, Option.some.injEq]
      exact htake
    · simp only [Option.some_bind, Option.pure_def, Option.some.injEq]
      exact htake

/-- Witness for C3: the no-qualifying-links part applied to a page with
one anchor whose href has no dated segment, and the scenario at the
default limit. -/
theorem C3_witness :
    get_article_links (.elem "html" [] [.elem "a" [("href", "/about")] []]) 40 = some [] ∧
    get_article_links scenarioDoc 50 = some ["https://techcrunch.com/2025/09/10/foo"] :=
  ⟨C3_discovery.2.1 (.elem "html" [] [.elem "a" [("href", "/about")] []]) 40
      (by intro a ha href hhref
          obtain ⟨haeq, -⟩ : a = Node.elem "a" [("href", "/about")] [] ∧
              (a.tag? == some "a" && (a.attr? "href").isSome) = true := by
            simpa [anchorsWithHref, Node.descendants, descList,
              Node.selfAndDescendants, List.mem_filter] using
              (List.mem_filter.mp ha)
          subst haeq
          rw [show Node.attr? (Node.elem "a" [("href", "/about")] []) "href" =
            some "/about" from rfl] at hhref
          cases hhref
          decide),
   C3_discovery.2.2 50 (by omega)⟩

/-! ## Claim C8 -/

def JsonValue.isStr : JsonValue → Bool
  | .str _ => true
  | _ => false

/-- A page whose JSON-LD `articleBody` is a (truthy) number, not a
string.  The source returns it as-is from `get_ldjson_article_body`, and
`parse_article` then raises `AttributeError` on `.strip()`. -/
def c8badDoc : Node :=
  .elem "html" [] [
    .elem "head" [] [
      .elem "script" [("type", "application/ld+json")]
        [.text "\x7b\"@type\":\"NewsArticle\",\"articleBody\":123\x7d"]],
    .elem "body" [] [.elem "article" [] [.elem "p" [] [.text "Fallback text."]]]]

/-- The spec's JSON-LD body scenario page. -/
def c8goodDoc : Node :=
  .elem "html" [] [
    .elem "head" [] [
      .elem "script" [("type", "application/ld+json")]
        [.text "\x7b\"@type\":\"NewsArticle\",\"articleBody\":\"Hello world.\"\x7d"]],
    .elem "body" [] [.elem "article" [] [.elem "p" [] [.text "Other paragraph text."]]]]

/-- Counterexample to C8: the strategy-1 body resolver can return a
non-string value (here the number 123), so the body resolution is not
always a string — and the article's extraction then fails instead of
producing a record. -/
theorem C8_counterexample :
    (get_ldjson_article_body c8badDoc).isSome = true ∧
    (get_ldjson_article_body c8badDoc).elim false JsonValue.isStr = false ∧
    parse_article "u" c8badDoc = none :=
  ⟨rfl, rfl, rfl⟩

theorem scriptBody_truthy (xs : List JsonValue) (v : JsonValue)
    (h : scriptBody xs = some v) : v.truthy = true := by
  unfold scriptBody at h
  cases hf : xs.find? (fun o =>
      ldTypeOk o && ((o.objGet "articleBody").elim false JsonValue.truthy)) with
  | none => rw [hf] at h; cases h
  | some o =>
    rw [hf] at h
    dsimp only at h
    have hp := List.find?_some hf
    simp only [Bool.and_eq_true] at hp
    cases hb : o.objGet "articleBody" with
    | none => rw [hb] at hp; cases hp.2
    | some w =>
      rw [hb] at h
      rw [hb] at hp
      cases h
      exact hp.2

theorem ldjson_body_go_truthy : ∀ (ss : List Node) (v : JsonValue),
    get_ldjson_article_body.go ss = some v → v.truthy = true
  | [], v, h => by cases h
  | s :: rest, v, h => by
    unfold get_ldjson_article_body.go at h
    cases hc : scriptCandidates s with
    | none =>
      rw [hc] at h
      dsimp only at h
      exact ldjson_body_go_truthy rest v h
    | some xs =>
      rw [hc] at h
      dsimp only at h
      cases hb : scriptBody xs with
      | none =>
        rw [hb] at h
        dsimp only at h
        exact ldjson_body_go_truthy rest v h
      | some b =>
        rw [hb] at h
        dsimp only at h
        cases h
        exact scriptBody_truthy xs _ hb

/-- **C8 (amended).** Every value strategy 1 yields is truthy
("non-empty"); when it yields a string, that string (stripped by the
extractor) is the record's body; when it yields nothing, the paragraph
fallback string is the body, and that fallback is a blank-line join of
paragraph texts each at least 2 characters long.  The original claim's
"always returns a string" fails when a JSON-LD `articleBody` is a
truthy non-string, in which case the value is returned as-is and the
article's extraction raises instead (see `C8_counterexample`). -/
theorem C8_body_resolution (doc : Node) (url : String) :
    (∀ v, get_ldjson_article_body doc = some v → v.truthy = true) ∧
    (∀ s, get_ldjson_article_body doc = some (.str s) →
       ∃ rec, parse_article url doc = some rec ∧
         rec.body = String.mk (pyStrip s.toList)) ∧
    (get_ldjson_article_body doc = none →
       ∃ rec, parse_article url doc = some rec ∧
         rec.body = String.mk (pyStrip (extract_paragraphs doc))) ∧
    (∃ ts, extract_paragraphs doc = joinSep ['\n', '\n'] ts ∧
       ∀ t ∈ ts, 2 ≤ t.length) := by
  refine ⟨?_, ?_, ?_, ?_⟩
  · intro v h
    exact ldjson_body_go_truthy (ldjsonScripts doc) v h
  · intro s h
    unfold parse_article
    rw [h]
    exact ⟨_, rfl, rfl⟩
  · intro h
    unfold parse_article
    rw [h]
    exact ⟨_, rfl, rfl⟩
  · refine ⟨_, rfl, ?_⟩
    intro t ht
    have := (List.mem_filter.mp ht).2
    exact of_decide_eq_true this

/-- Witness for C8 on the scenario page: the JSON-LD body
`"Hello world."` is returned (stripped) as the record's body. -/
theorem C8_witness :
    ∃ rec, parse_article "u" c8goodDoc = some rec ∧
      rec.body = String.mk (pyStrip "Hello world.".toList) :=
  (C8_body_resolution c8goodDoc "u").2.1 "Hello world." rfl


/-! ## Claim C9
The `normalize_link` idempotence analysis. -/

/-! ### List helpers for the URL proofs -/

theorem takeWhileAll {p : Char → Bool} : ∀ (l r : List Char), (∀ a ∈ l, p a = true) →
    (l ++ r).takeWhile p = l ++ r.takeWhile p
  | [], _, _ => rfl
  | c :: l, r, h => by
    simp only [List.cons_append, List.takeWhile_cons, h c (List.mem_cons_self _ _), if_true]
    rw [takeWhileAll l r (fun a ha => h a (List.mem_cons_of_mem _ ha))]

theorem dropWhileAll {p : Char → Bool} : ∀ (l r : List Char), (∀ a ∈ l, p a = true) →
    (l ++ r).dropWhile p = r.dropWhile p
  | [], _, _ => rfl
  | c :: l, r, h => by
    simp only [List.cons_append, List.dropWhile_cons, h c (List.mem_cons_self _ _), if_true]
    exact dropWhileAll l r (fun a ha => h a (List.mem_cons_of_mem _ ha))

theorem takeWhileSelf {p : Char → Bool} : ∀ (l : List Char), (∀ a ∈ l, p a = true) →
    l.takeWhile p = l
  | [], _ => rfl
  | c :: l, h => by
    simp only [List.takeWhile_cons, h c (List.mem_cons_self _ _), if_true]
    rw [takeWhileSelf l (fun a ha => h a (List.mem_cons_of_mem _ ha))]

theorem takeWhileStop {p : Char → Bool} (l r : List Char) (h : ∀ a ∈ l, p a = true)
    (c : Char) (hc : p c = false) : (l ++ c :: r).takeWhile p = l := by
  rw [takeWhileAll l (c :: r) h]
  simp [List.takeWhile_cons, hc]

theorem dropWhileStop {p : Char → Bool} (l r : List Char) (h : ∀ a ∈ l, p a = true)
    (c : Char) (hc : p c = false) : (l ++ c :: r).dropWhile p = c :: r := by
  rw [dropWhileAll l (c :: r) h]
  simp [List.dropWhile_cons, hc]

theorem mem_takeWhileP {p : Char → Bool} : ∀ (l : List Char) (a : Char),
    a ∈ l.takeWhile p → p a = true ∧ a ∈ l
  | [], a, h => by cases h
  | c :: l, a, h => by
    by_cases hc : p c = true
    · rw [List.takeWhile_cons, if_pos hc] at h
      rcases List.mem_cons.mp h with h | h
      · subst h; exact ⟨hc, List.mem_cons_self _ _⟩
      · have := mem_takeWhileP l a h
        exact ⟨this.1, List.mem_cons_of_mem _ this.2⟩
    · rw [List.takeWhile_cons, if_neg hc] at h
      cases h

theorem mem_dropWhileP {p : Char → Bool} : ∀ (l : List Char) (a : Char),
    a ∈ l.dropWhile p → a ∈ l
  | [], a, h => by cases h
  | c :: l, a, h => by
    by_cases hc : p c = true
    · rw [List.dropWhile_cons, if_pos hc] at h
      exact List.mem_cons_of_mem _ (mem_dropWhileP l a h)
    · rw [List.dropWhile_cons, if_neg hc] at h
      exact h

theorem mem_dropP : ∀ (n : Nat) (l : List Char) (a : Char), a ∈ l.drop n → a ∈ l := by
  intro n l a h
  exact List.mem_of_mem_drop h

/-! ### Params split/rejoin stability -/

theorem dropWhile_mem_head (c0 : Char) : ∀ (l : List Char), c0 ∈ l →
    ∃ t, l.dropWhile (fun c => !(c == c0)) = c0 :: t
  | [], h => by cases h
  | c :: l, h => by
    by_cases hc : c = c0
    · subst hc
      exact ⟨l, by simp [List.dropWhile_cons]⟩
    · have hmem : c0 ∈ l := by
        rcases List.mem_cons.mp h with h | h
        · exact absurd h.symm hc
        · exact h
      obtain ⟨t, ht⟩ := dropWhile_mem_head c0 l hmem
      refine ⟨t, ?_⟩
      rw [List.dropWhile_cons, if_pos (by simpa using beq_eq_false_iff_ne.mpr hc), ht]

theorem dropWhile_semi_tail : ∀ (x y : List Char), y ≠ [] →
    ((x ++ ';' :: y).dropWhile (fun c => !(c == ';'))).drop 1 ≠ []
  | [], y, hy => by
    simp only [List.nil_append, List.dropWhile_cons]
    simpa using hy
  | c :: x, y, hy => by
    by_cases hc : c = ';'
    · subst hc
      simp only [List.cons_append, List.dropWhile_cons, beq_self_eq_true, Bool.not_true,
        Bool.false_eq_true, if_false, List.drop_one, List.tail_cons]
      simp [hy]
    · rw [List.cons_append, List.dropWhile_cons,
        if_pos (by simpa using beq_eq_false_iff_ne.mpr hc)]
      exact dropWhile_semi_tail x y hy

theorem lastSlashSuffix_mem (v : List Char) (a : Char) (ha : a ∈ lastSlashSuffix v) :
    a ∈ v ∧ a ≠ '/' := by
  unfold lastSlashSuffix at ha
  have h1 := List.mem_reverse.mp ha
  have h2 := mem_takeWhileP v.reverse a h1
  refine ⟨List.mem_reverse.mp h2.2, ?_⟩
  have := h2.1
  simp only [Bool.not_eq_true'] at this
  exact beq_eq_false_iff_ne.mp this

/-- Decomposition of a list at its last slash. -/
theorem lastSlash_ex (v : List Char) :
    ∃ D b, b = lastSlashSuffix v ∧ v = D ++ b ∧
      v.take (v.length - b.length) = D ∧
      ('/' ∈ v → D ≠ [] ∧ D.getLast? = some '/') := by
  refine ⟨(v.reverse.dropWhile (fun c => !(c == '/'))).reverse, lastSlashSuffix v, rfl, ?_, ?_, ?_⟩
  · unfold lastSlashSuffix
    conv_lhs => rw [show v = v.reverse.reverse from (List.reverse_reverse v).symm]
    rw [← List.reverse_append, List.takeWhile_append_dropWhile]
  · have hv : v = (v.reverse.dropWhile (fun c => !(c == '/'))).reverse ++ lastSlashSuffix v := by
      unfold lastSlashSuffix
      conv_lhs => rw [show v = v.reverse.reverse from (List.reverse_reverse v).symm]
      rw [← List.reverse_append, List.takeWhile_append_dropWhile]
    have hlenv : v.length =
        (v.reverse.dropWhile (fun c => !(c == '/'))).reverse.length +
          (lastSlashSuffix v).length := by
      conv_lhs => rw [hv]
      exact List.length_append _ _
    have hlen : v.length - (lastSlashSuffix v).length =
        (v.reverse.dropWhile (fun c => !(c == '/'))).reverse.length := by omega
    rw [hlen]
    nth_rewrite 2 [hv]
    exact List.take_left _ _
  · intro hslash
    obtain ⟨t, ht⟩ := dropWhile_mem_head '/' v.reverse (List.mem_reverse.mpr hslash)
    rw [ht]
    constructor
    · simp
    · simp

theorem lastSlashSuffix_append (x y : List Char) (hy : '/' ∉ y) :
    lastSlashSuffix (x ++ y) = lastSlashSuffix x ++ y := by
  unfold lastSlashSuffix
  rw [List.reverse_append]
  rw [takeWhileAll y.reverse x.reverse (fun a ha => by
    simp only [Bool.not_eq_true']
    have hay : a ∈ y := List.mem_reverse.mp ha
    exact beq_eq_false_iff_ne.mpr (fun hc => hy (hc ▸ hay)))]
  rw [List.reverse_append, List.reverse_reverse]

/-- Rejoining the output of `splitParams` gives the input back, except
when the split's found semicolon is the final character. -/
theorem rejoin_splitParams (v : List Char)
    (hok : v.getLast? ≠ some ';' ∨
      (∃ x y, v = x ++ ';' :: y ∧ y ≠ [] ∧ '/' ∉ ';' :: y ∧ '/' ∈ x)) :
    rejoinParams (splitParams v).1 (splitParams v).2 = v := by
  by_cases hsemi : ';' ∈ v
  case neg =>
    unfold splitParams
    rw [if_neg hsemi]
    rfl
  case pos =>
  unfold splitParams
  rw [if_pos hsemi]
  unfold splitParamsCore
  by_cases hslash : '/' ∈ v
  case pos =>
    rw [if_pos hslash]
    obtain ⟨D, b, hbdef, hv, htake, hD⟩ := lastSlash_ex v
    rw [← hbdef]
    by_cases hbsemi : ';' ∈ b
    case neg =>
      rw [if_neg (hbdef ▸ hbsemi)]
      rfl
    case pos =>
      rw [if_pos (hbdef ▸ hbsemi)]
      obtain ⟨t, ht⟩ := dropWhile_mem_head ';' b hbsemi
      have hbsplit : b.takeWhile (fun c => !(c == ';')) ++ ';' :: t = b := by
        conv_rhs => rw [← List.takeWhile_append_dropWhile
          (p := fun c => !(c == ';')) (l := b), ht]
      have htne : t ≠ [] := by
        rcases hok with hok | ⟨x, y, hxy, hyne, hsl, hx⟩
        · intro htnil
          subst htnil
          apply hok
          rw [hv, ← hbsplit]
          have : D ++ (List.takeWhile (fun c => !(c == ';')) b ++ [';']) =
              (D ++ List.takeWhile (fun c => !(c == ';')) b) ++ [';'] := by
            simp
          rw [this, List.getLast?_concat]
        · have hbform : b = lastSlashSuffix x ++ ';' :: y := by
            rw [hbdef, hxy]
            exact lastSlashSuffix_append x (';' :: y) hsl
          have := dropWhile_semi_tail (lastSlashSuffix x) y hyne
          rw [← hbform, ht] at this
          simpa using this
      rw [htake, ht]
      unfold rejoinParams
      rw [if_neg (by simpa using htne)]
      simp only [List.drop_one, List.tail_cons]
      rw [List.append_assoc, hbsplit, ← hv]
  case neg =>
    rw [if_neg hslash]
    obtain ⟨t, ht⟩ := dropWhile_mem_head ';' v hsemi
    have hsplit : v.takeWhile (fun c => !(c == ';')) ++ ';' :: t = v := by
      conv_rhs => rw [← List.takeWhile_append_dropWhile
        (p := fun c => !(c == ';')) (l := v), ht]
    have htne : t ≠ [] := by
      rcases hok with hok | ⟨x, y, hxy, hyne, hsl, hx⟩
      · intro htnil
        subst htnil
        apply hok
        rw [← hsplit, List.getLast?_concat]
      · exact absurd (hxy ▸ List.mem_append_left _ hx) hslash
    rw [ht]
    unfold rejoinParams
    rw [if_neg (by simpa using htne)]
    simp only [List.drop_one, List.tail_cons]
    exact hsplit

/-! ### Invariants of parse components -/

theorem splitParams_fst_mem (x : List Char) (a : Char)
    (ha : a ∈ (splitParams x).1) : a ∈ x := by
  unfold splitParams at ha
  by_cases hsemi : ';' ∈ x
  · rw [if_pos hsemi] at ha
    unfold splitParamsCore at ha
    by_cases hslash : '/' ∈ x
    · rw [if_pos hslash] at ha
      by_cases hb : ';' ∈ lastSlashSuffix x
      · rw [if_pos hb] at ha
        simp only at ha
        rcases List.mem_append.mp ha with h | h
        · exact List.mem_of_mem_take h
        · exact (lastSlashSuffix_mem x a (mem_takeWhileP _ a h).2).1
      · rw [if_neg hb] at ha
        exact ha
    · rw [if_neg hslash] at ha
      exact (mem_takeWhileP x a ha).2
  · rw [if_neg hsemi] at ha
    exact ha

theorem splitParams_snd_mem (x : List Char) (a : Char)
    (ha : a ∈ (splitParams x).2) : a ∈ x ∧ a ≠ '/' := by
  unfold splitParams at ha
  by_cases hsemi : ';' ∈ x
  · rw [if_pos hsemi] at ha
    unfold splitParamsCore at ha
    by_cases hslash : '/' ∈ x
    · rw [if_pos hslash] at ha
      by_cases hb : ';' ∈ lastSlashSuffix x
      · rw [if_pos hb] at ha
        simp only at ha
        have h1 : a ∈ lastSlashSuffix x :=
          mem_dropWhileP _ a (List.mem_of_mem_drop ha)
        exact lastSlashSuffix_mem x a h1
      · rw [if_neg hb] at ha
        cases ha
    · rw [if_neg hslash] at ha
      simp only at ha
      have h1 : a ∈ x := mem_dropWhileP _ a (List.mem_of_mem_drop ha)
      exact ⟨h1, fun hc => hslash (hc ▸ h1)⟩
  · rw [if_neg hsemi] at ha
    cases ha

theorem splitParams_fst_not_endSemi (x : List Char) :
    (splitParams x).1.getLast? ≠ some ';' := by
  unfold splitParams
  by_cases hsemi : ';' ∈ x
  case neg =>
    rw [if_neg hsemi]
    intro hend
    exact hsemi (List.mem_of_mem_getLast? hend)
  case pos =>
  rw [if_pos hsemi]
  unfold splitParamsCore
  by_cases hslash : '/' ∈ x
  case pos =>
    rw [if_pos hslash]
    obtain ⟨D, b, hbdef, hv, htake, hD⟩ := lastSlash_ex x
    obtain ⟨hDne, hDlast⟩ := hD hslash
    rw [← hbdef]
    by_cases hb : ';' ∈ b
    case pos =>
      rw [if_pos hb]
      dsimp only
      rw [htake]
      cases htw : b.takeWhile (fun c => !(c == ';')) with
      | nil =>
        rw [List.append_nil, hDlast]
        simp
      | cons c t =>
        rw [List.getLast?_append_of_ne_nil _ (by simp)]
        intro hend
        have hmem : ';' ∈ c :: t := List.mem_of_mem_getLast? hend
        have hmem2 : ';' ∈ b.takeWhile (fun c => !(c == ';')) := htw ▸ hmem
        have := (mem_takeWhileP _ _ hmem2).1
        simp at this
    case neg =>
      rw [if_neg hb]
      dsimp only
      intro hend
      cases hbe : b with
      | nil =>
        rw [hv, hbe, List.append_nil, hDlast] at hend
        simp at hend
      | cons c t =>
        apply hb
        rw [hv, hbe, List.getLast?_append_of_ne_nil _ (by simp)] at hend
        rw [hbe]
        exact List.mem_of_mem_getLast? hend
  case neg =>
    rw [if_neg hslash]
    dsimp only
    intro hend
    have hmem := List.mem_of_mem_getLast? hend
    have := (mem_takeWhileP _ _ hmem).1
    simp at this

/-! ### Parse-output invariants -/

theorem removeUnsafe_mem (l : List Char) (a : Char) (ha : a ∈ removeUnsafe l) :
    unsafeUrlByte a = false := by
  have := (List.mem_filter.mp ha).2
  simpa using this

theorem splitFragQuery_fields (scheme netloc rest2 : List Char)
    (hrest : ∀ a ∈ rest2, unsafeUrlByte a = false) :
    (splitFragQuery scheme netloc rest2).scheme = scheme ∧
    (splitFragQuery scheme netloc rest2).netloc = netloc ∧
    (∀ a ∈ (splitFragQuery scheme netloc rest2).path,
       (a == '?') = false ∧ (a == '#') = false ∧ unsafeUrlByte a = false) ∧
    (∀ a ∈ (splitFragQuery scheme netloc rest2).query,
       (a == '#') = false ∧ unsafeUrlByte a = false) ∧
    (∀ a ∈ (splitFragQuery scheme netloc rest2).fragment, unsafeUrlByte a = false) := by
  refine ⟨rfl, rfl, ?_, ?_, ?_⟩
  · intro a ha
    simp only [splitFragQuery] at ha
    have h1 := mem_takeWhileP _ a ha
    have h2 := mem_takeWhileP _ a h1.2
    refine ⟨by simpa using h1.1, by simpa using h2.1, hrest a h2.2⟩
  · intro a ha
    simp only [splitFragQuery] at ha
    have h1 : a ∈ (rest2.takeWhile (fun c => !(c == '#'))).dropWhile (fun c => !(c == '?')) :=
      List.mem_of_mem_drop ha
    have h2 := mem_takeWhileP _ a (mem_dropWhileP _ a h1)
    refine ⟨by simpa using h2.1, hrest a h2.2⟩
  · intro a ha
    simp only [splitFragQuery] at ha
    exact hrest a (mem_dropWhileP _ a (List.mem_of_mem_drop ha))

theorem urlsplit_inv (url ds : List Char) (r : UrlSplitResult)
    (h : urlsplitChars url ds = some r) :
    (∀ a ∈ r.netloc, netlocStop a = false ∧ unsafeUrlByte a = false) ∧
    (∀ a ∈ r.path, (a == '?') = false ∧ (a == '#') = false ∧ unsafeUrlByte a = false) ∧
    (∀ a ∈ r.query, (a == '#') = false ∧ unsafeUrlByte a = false) ∧
    (∀ a ∈ r.fragment, unsafeUrlByte a = false) ∧
    ((r.netloc.contains '[' && !r.netloc.contains ']') ||
      (r.netloc.contains ']' && !r.netloc.contains '[')) = false := by
  unfold urlsplitChars at h
  simp only at h
  generalize hu1 : removeUnsafe url = url1 at h
  generalize hpre : List.takeWhile (fun c => !(c == ':')) url1 = pre at h
  generalize hsf : (decide (pre.length < url1.length) && !pre.isEmpty
      && pre.head?.elim false Char.isAlpha && pre.all isSchemeChar) = sf at h
  generalize hscheme : (if sf = true then List.map Char.toLower pre else removeUnsafe ds)
      = scheme at h
  generalize hrest : (if sf = true then List.drop (pre.length + 1) url1 else url1) = rest at h
  have hu1mem : ∀ a ∈ url1, unsafeUrlByte a = false := by
    intro a ha
    apply removeUnsafe_mem url
    rw [hu1]
    exact ha
  have hrestmem : ∀ a ∈ rest, unsafeUrlByte a = false := by
    intro a ha
    rw [← hrest] at ha
    split at ha
    · exact hu1mem a (List.mem_of_mem_drop ha)
    · exact hu1mem a ha
  split at h
  · next _ r2 =>
    have hr2 : ∀ a ∈ r2, unsafeUrlByte a = false := fun a ha =>
      hrestmem a (List.mem_cons_of_mem _ (List.mem_cons_of_mem _ ha))
    split at h
    · cases h
    · next hbr =>
      simp only [Option.some.injEq] at h
      subst h
      obtain ⟨hs, hn, hp, hq, hf⟩ := splitFragQuery_fields scheme
        (r2.takeWhile (fun c => !netlocStop c))
        (r2.dropWhile (fun c => !netlocStop c))
        (fun a ha => hr2 a (mem_dropWhileP _ a ha))
      refine ⟨?_, hp, hq, hf, ?_⟩
      · intro a ha
        rw [hn] at ha
        have := mem_takeWhileP _ a ha
        exact ⟨by simpa using this.1, hr2 a this.2⟩
      · rw [hn]
        exact eq_false_of_ne_true hbr
  · next heq =>
    simp only [Option.some.injEq] at h
    subst h
    obtain ⟨hs, hn, hp, hq, hf⟩ := splitFragQuery_fields scheme ([] : List Char) rest hrestmem
    refine ⟨?_, hp, hq, hf, ?_⟩
    · intro a ha
      rw [hn] at ha
      cases ha
    · rw [hn]
      rfl

/-! ### fixPath and region facts -/

theorem fixPath_mem (u : List Char) (a : Char) (ha : a ∈ fixPath u) : a ∈ u ∨ a = '/' := by
  unfold fixPath at ha
  split at ha
  · rcases List.mem_cons.mp ha with ha | ha
    · exact Or.inr ha
    · exact Or.inl ha
  · exact Or.inl ha

theorem fixPath_getLast (u : List Char) (hu : u ≠ []) :
    (fixPath u).getLast? = u.getLast? := by
  unfold fixPath
  split
  · exact List.getLast?_append_of_ne_nil ['/'] hu
  · rfl

theorem fixPath_idem (u : List Char) : fixPath (fixPath u) = fixPath u := by
  cases u with
  | nil => rfl
  | cons c t =>
    by_cases hc : c = '/'
    · subst hc
      unfold fixPath
      simp
    · unfold fixPath
      simp [hc]

theorem fixPath_shape (u : List Char) : fixPath u = [] ∨ ∃ t, fixPath u = '/' :: t := by
  unfold fixPath
  split
  · exact Or.inr ⟨u, rfl⟩
  · next h =>
    cases u with
    | nil => exact Or.inl rfl
    | cons c t =>
      right
      have hc : c = '/' := by
        by_contra hc
        exact h (by simp [hc])
      exact ⟨t, by rw [hc]⟩

theorem lastSlashSuffix_no_slash (v : List Char) (hv : '/' ∉ v) : lastSlashSuffix v = v := by
  unfold lastSlashSuffix
  rw [takeWhileSelf, List.reverse_reverse]
  intro a ha
  have hav : a ∈ v := List.mem_reverse.mp ha
  have : a ≠ '/' := fun he => hv (he ▸ hav)
  simpa using this

theorem lastSlashSuffix_endSlash (v : List Char) (hv : v.getLast? = some '/') :
    lastSlashSuffix v = [] := by
  unfold lastSlashSuffix
  have hrev : v.reverse.head? = some '/' := by
    rw [List.head?_reverse]
    exact hv
  cases hr : v.reverse with
  | nil => rw [hr] at hrev; cases hrev
  | cons c t =>
    rw [hr] at hrev
    simp only [List.head?_cons, Option.some.injEq] at hrev
    subst hrev
    simp [List.takeWhile_cons]

theorem splitParams_fst_region (x : List Char) :
    ';' ∉ lastSlashSuffix ((splitParams x).1) := by
  unfold splitParams
  by_cases hsemi : ';' ∈ x
  · rw [if_pos hsemi]
    unfold splitParamsCore
    by_cases hsl : '/' ∈ x
    · rw [if_pos hsl]
      by_cases hb : ';' ∈ lastSlashSuffix x
      · simp only [if_pos hb]
        obtain ⟨D, b, hbdef, hvdecomp, htake, hDfact⟩ := lastSlash_ex x
        obtain ⟨hDne, hDlast⟩ := hDfact hsl
        rw [← hbdef, htake]
        have htw : ∀ a ∈ b.takeWhile (fun c => !(c == ';')), a ∈ b ∧ a ≠ ';' := by
          intro a ha
          have := mem_takeWhileP _ a ha
          exact ⟨this.2, by simpa using this.1⟩
        have hnoslash : '/' ∉ b.takeWhile (fun c => !(c == ';')) := by
          intro hmem
          have hbm := (htw '/' hmem).1
          rw [hbdef] at hbm
          exact (lastSlashSuffix_mem x '/' hbm).2 rfl
        rw [lastSlashSuffix_append D _ hnoslash, lastSlashSuffix_endSlash D hDlast,
          List.nil_append]
        intro hmem
        exact (htw ';' hmem).2 rfl
      · rw [if_neg hb]
        exact hb
    · rw [if_neg hsl]
      intro hmem
      have := mem_takeWhileP _ ';'
        (lastSlashSuffix_mem (x.takeWhile (fun c => !(c == ';'))) ';' hmem).1
      simp at this
  · rw [if_neg hsemi]
    intro hmem
    exact hsemi (lastSlashSuffix_mem x ';' hmem).1

theorem urlparse_inv (url ds : List Char) (r : UrlParseResult)
    (h : urlparseChars url ds = some r) :
    (∀ a ∈ r.netloc, netlocStop a = false ∧ unsafeUrlByte a = false) ∧
    (∀ a ∈ r.path, (a == '?') = false ∧ (a == '#') = false ∧ unsafeUrlByte a = false) ∧
    (∀ a ∈ r.params,
       (a == '?') = false ∧ (a == '#') = false ∧ unsafeUrlByte a = false ∧ a ≠ '/') ∧
    (∀ a ∈ r.query, (a == '#') = false ∧ unsafeUrlByte a = false) ∧
    (∀ a ∈ r.fragment, unsafeUrlByte a = false) ∧
    ((r.netloc.contains '[' && !r.netloc.contains ']') ||
      (r.netloc.contains ']' && !r.netloc.contains '[')) = false ∧
    r.path.getLast? ≠ some ';' ∧
    ';' ∉ lastSlashSuffix r.path := by
  unfold urlparseChars at h
  cases hs : urlsplitChars url ds with
  | none => rw [hs] at h; cases h
  | some r0 =>
    rw [hs] at h
    simp only [Option.map_some', Option.some.injEq] at h
    subst h
    obtain ⟨hn, hp, hq, hf, hbr⟩ := urlsplit_inv url ds r0 hs
    refine ⟨hn, ?_, ?_, hq, hf, hbr,
      splitParams_fst_not_endSemi r0.path, splitParams_fst_region r0.path⟩
    · intro a ha
      exact hp a (splitParams_fst_mem r0.path a ha)
    · intro a ha
      obtain ⟨hmem, hslash⟩ := splitParams_snd_mem r0.path a ha
      obtain ⟨h1, h2, h3⟩ := hp a hmem
      exact ⟨h1, h2, h3, hslash⟩

theorem urlunsplit_form (s n u q f : List Char)
    (hs : s.isEmpty = false) (hn : n.isEmpty = false) :
    urlunsplitChars s n u q f =
      s ++ ':' :: '/' :: '/' :: (n ++ (fixPath u ++
        ((if q.isEmpty then [] else '?' :: q) ++
         (if f.isEmpty then [] else '#' :: f)))) := by
  unfold urlunsplitChars fixPath
  cases hq : q.isEmpty <;> cases hf : f.isEmpty <;>
    simp [hs, hn, hq, hf, List.append_assoc]

theorem urlunparse_rejoin (s n p pr q f : List Char) :
    urlunparseChars s n p pr q f = urlunsplitChars s n (rejoinParams p pr) q f := by
  unfold urlunparseChars rejoinParams
  cases hpr : pr.isEmpty <;> simp [hpr]

/-! ### Re-splitting a serialized https URL -/

theorem dropWhileSelf {p : Char → Bool} (l : List Char) (h : ∀ a ∈ l, p a = true) :
    l.dropWhile p = [] := by
  have := dropWhileAll l [] h
  simpa using this

theorem splitFragQuery_recover (sc nl P qv fv Qv Fv : List Char)
    (hP : ∀ a ∈ P, (a == '?') = false ∧ (a == '#') = false)
    (hqv : ∀ a ∈ qv, (a == '#') = false)
    (hQv : Qv = if qv.isEmpty then [] else '?' :: qv)
    (hFv : Fv = if fv.isEmpty then [] else '#' :: fv) :
    splitFragQuery sc nl (P ++ (Qv ++ Fv)) = ⟨sc, nl, P, qv, fv⟩ := by
  subst hQv hFv
  have hPq : ∀ a ∈ P, (!(a == '?')) = true := fun a ha => by simp [(hP a ha).1]
  have hPh : ∀ a ∈ P, (!(a == '#')) = true := fun a ha => by simp [(hP a ha).2]
  have hqh : ∀ a ∈ qv, (!(a == '#')) = true := fun a ha => by simp [hqv a ha]
  by_cases hfv : fv.isEmpty = true
  · have hfnil : fv = [] := List.isEmpty_iff.mp hfv
    subst hfnil
    simp only [List.isEmpty_nil, if_true, List.append_nil]
    by_cases hqe : qv.isEmpty = true
    · have hqnil : qv = [] := List.isEmpty_iff.mp hqe
      subst hqnil
      simp only [List.isEmpty_nil, if_true, List.append_nil]
      unfold splitFragQuery
      simp only
      rw [takeWhileSelf P hPh, dropWhileSelf P hPh, takeWhileSelf P hPq,
        dropWhileSelf P hPq]
      rfl
    · rw [if_neg hqe]
      unfold splitFragQuery
      simp only
      have hall : ∀ a ∈ P ++ '?' :: qv, (!(a == '#')) = true := by
        intro a ha
        rcases List.mem_append.mp ha with h | h
        · exact hPh a h
        · rcases List.mem_cons.mp h with rfl | h
          · decide
          · exact hqh a h
      rw [takeWhileSelf _ hall, dropWhileSelf _ hall,
        takeWhileStop P qv hPq '?' (by decide), dropWhileStop P qv hPq '?' (by decide)]
      rfl
  · rw [if_neg hfv]
    by_cases hqe : qv.isEmpty = true
    · have hqnil : qv = [] := List.isEmpty_iff.mp hqe
      subst hqnil
      simp only [List.isEmpty_nil, if_true, List.nil_append]
      unfold splitFragQuery
      simp only
      rw [takeWhileStop P fv hPh '#' (by decide), dropWhileStop P fv hPh '#' (by decide),
        takeWhileSelf P hPq, dropWhileSelf P hPq]
      rfl
    · rw [if_neg hqe]
      have hrw : P ++ ('?' :: qv ++ '#' :: fv) = (P ++ '?' :: qv) ++ '#' :: fv := by
        simp [List.append_assoc]
      rw [hrw]
      unfold splitFragQuery
      simp only
      have hall : ∀ a ∈ P ++ '?' :: qv, (!(a == '#')) = true := by
        intro a ha
        rcases List.mem_append.mp ha with h | h
        · exact hPh a h
        · rcases List.mem_cons.mp h with rfl | h
          · decide
          · exact hqh a h
      rw [takeWhileStop _ fv hall '#' (by decide), dropWhileStop _ fv hall '#' (by decide),
        takeWhileStop P qv hPq '?' (by decide), dropWhileStop P qv hPq '?' (by decide)]
      rfl

theorem reparse_split (n w q f ds : List Char)
    (hn : n.isEmpty = false)
    (hnl : ∀ a ∈ n, netlocStop a = false ∧ unsafeUrlByte a = false)
    (hbr : ((n.contains '[' && !n.contains ']') ||
            (n.contains ']' && !n.contains '[')) = false)
    (hw : ∀ a ∈ w, (a == '?') = false ∧ (a == '#') = false ∧ unsafeUrlByte a = false)
    (hq : ∀ a ∈ q, (a == '#') = false ∧ unsafeUrlByte a = false)
    (hf : ∀ a ∈ f, unsafeUrlByte a = false) :
    urlsplitChars (urlunsplitChars httpsChars n w q f) ds =
      some ⟨httpsChars, n, fixPath w, q, f⟩ := by
  rw [urlunsplit_form httpsChars n w q f rfl hn]
  set P := fixPath w with hPdef
  set Q := (if q.isEmpty then [] else '?' :: q) with hQdef
  set F := (if f.isEmpty then [] else '#' :: f) with hFdef
  have hPmem : ∀ a ∈ P, (a == '?') = false ∧ (a == '#') = false ∧ unsafeUrlByte a = false := by
    intro a ha
    rw [hPdef] at ha
    rcases fixPath_mem w a ha with h | rfl
    · exact hw a h
    · exact ⟨by decide, by decide, by decide⟩
  have hQmem : ∀ a ∈ Q, (a == '#') = false ∧ unsafeUrlByte a = false := by
    intro a ha
    rw [hQdef] at ha
    split at ha
    · cases ha
    · rcases List.mem_cons.mp ha with rfl | ha
      · exact ⟨by decide, by decide⟩
      · exact hq a ha
  have hFmem : ∀ a ∈ F, unsafeUrlByte a = false := by
    intro a ha
    rw [hFdef] at ha
    split at ha
    · cases ha
    · rcases List.mem_cons.mp ha with rfl | ha
      · decide
      · exact hf a ha
  have hhmem : ∀ b ∈ httpsChars, unsafeUrlByte b = false := by
    intro b hb
    simp only [httpsChars] at hb
    fin_cases hb <;> decide
  have hsafe : ∀ a ∈ httpsChars ++ ':' :: '/' :: '/' :: (n ++ (P ++ (Q ++ F))),
      unsafeUrlByte a = false := by
    intro a ha
    rcases List.mem_append.mp ha with ha | ha
    · exact hhmem a ha
    rcases List.mem_cons.mp ha with rfl | ha
    · decide
    rcases List.mem_cons.mp ha with rfl | ha
    · decide
    rcases List.mem_cons.mp ha with rfl | ha
    · decide
    rcases List.mem_append.mp ha with ha | ha
    · exact (hnl a ha).2
    rcases List.mem_append.mp ha with ha | ha
    · exact (hPmem a ha).2.2
    rcases List.mem_append.mp ha with ha | ha
    · exact (hQmem a ha).2
    · exact hFmem a ha
  have hclean : removeUnsafe (httpsChars ++ ':' :: '/' :: '/' :: (n ++ (P ++ (Q ++ F))))
      = httpsChars ++ ':' :: '/' :: '/' :: (n ++ (P ++ (Q ++ F))) := by
    unfold removeUnsafe
    rw [List.filter_eq_self.mpr]
    intro a ha
    simp [hsafe a ha]
  have hhc : ∀ a ∈ httpsChars, (!(a == ':')) = true := by
    intro a ha
    simp only [httpsChars] at ha
    fin_cases ha <;> decide
  have hpre : List.takeWhile (fun c => !(c == ':'))
      (httpsChars ++ ':' :: '/' :: '/' :: (n ++ (P ++ (Q ++ F)))) = httpsChars :=
    takeWhileStop _ _ hhc ':' (by decide)
  have hlt : httpsChars.length <
      (httpsChars ++ ':' :: '/' :: '/' :: (n ++ (P ++ (Q ++ F)))).length := by
    simp only [List.length_append, List.length_cons]
    omega
  have hsf : (decide (httpsChars.length <
        (httpsChars ++ ':' :: '/' :: '/' :: (n ++ (P ++ (Q ++ F)))).length)
      && !httpsChars.isEmpty && httpsChars.head?.elim false Char.isAlpha
      && httpsChars.all isSchemeChar) = true := by
    rw [decide_eq_true hlt]
    decide
  have hdrop : (httpsChars ++ ':' :: '/' :: '/' :: (n ++ (P ++ (Q ++ F)))).drop
      (httpsChars.length + 1) = '/' :: '/' :: (n ++ (P ++ (Q ++ F))) := rfl
  have hlow : List.map Char.toLower httpsChars = httpsChars := by decide
  have hnall : ∀ a ∈ n, (!netlocStop a) = true := fun a ha => by simp [(hnl a ha).1]
  have hstop : P ++ (Q ++ F) = [] ∨
      ∃ c r', P ++ (Q ++ F) = c :: r' ∧ netlocStop c = true := by
    rcases fixPath_shape w with h0 | ⟨t, ht⟩
    · rw [hPdef, h0, List.nil_append, hQdef]
      split
      · rw [List.nil_append, hFdef]
        split
        · exact Or.inl rfl
        · exact Or.inr ⟨'#', f, rfl, by decide⟩
      · exact Or.inr ⟨'?', q ++ F, rfl, by decide⟩
    · rw [hPdef, ht]
      exact Or.inr ⟨'/', t ++ (Q ++ F), rfl, by decide⟩
  have hTake : (n ++ (P ++ (Q ++ F))).takeWhile (fun c => !netlocStop c) = n := by
    rcases hstop with h0 | ⟨c, r', hcr, hcs⟩
    · rw [h0, List.append_nil]
      exact takeWhileSelf n hnall
    · rw [hcr]
      exact takeWhileStop n r' hnall c (by simp [hcs])
  have hDrop : (n ++ (P ++ (Q ++ F))).dropWhile (fun c => !netlocStop c) = P ++ (Q ++ F) := by
    rcases hstop with h0 | ⟨c, r', hcr, hcs⟩
    · rw [h0, List.append_nil]
      exact dropWhileSelf n hnall
    · rw [hcr]
      exact dropWhileStop n r' hnall c (by simp [hcs])
  unfold urlsplitChars
  simp only
  rw [hclean, hpre, hsf]
  simp only [reduceIte, hdrop, hlow]
  rw [hTake, hDrop, hbr]
  simp only [Bool.false_eq_true, if_false]
  rw [splitFragQuery_recover httpsChars n P q f Q F
    (fun a ha => ⟨(hPmem a ha).1, (hPmem a ha).2.1⟩)
    (fun a ha => (hq a ha).1) hQdef hFdef]

theorem urlunsplit_fixPath (s n u q f : List Char)
    (hs : s.isEmpty = false) (hn : n.isEmpty = false) :
    urlunsplitChars s n (fixPath u) q f = urlunsplitChars s n u q f := by
  rw [urlunsplit_form s n u q f hs hn, urlunsplit_form s n (fixPath u) q f hs hn,
    fixPath_idem]

theorem reparse_parse (n w q f ds : List Char)
    (hn : n.isEmpty = false)
    (hnl : ∀ a ∈ n, netlocStop a = false ∧ unsafeUrlByte a = false)
    (hbr : ((n.contains '[' && !n.contains ']') ||
            (n.contains ']' && !n.contains '[')) = false)
    (hw : ∀ a ∈ w, (a == '?') = false ∧ (a == '#') = false ∧ unsafeUrlByte a = false)
    (hq : ∀ a ∈ q, (a == '#') = false ∧ unsafeUrlByte a = false)
    (hf : ∀ a ∈ f, unsafeUrlByte a = false) :
    urlparseChars (urlunsplitChars httpsChars n w q f) ds =
      some ⟨httpsChars, n, (splitParams (fixPath w)).1, (splitParams (fixPath w)).2, q, f⟩ := by
  unfold urlparseChars
  rw [reparse_split n w q f ds hn hnl hbr hw hq hf]
  rfl

theorem reparse_fixed (n w q f : List Char)
    (hn : n.isEmpty = false)
    (hnl : ∀ a ∈ n, netlocStop a = false ∧ unsafeUrlByte a = false)
    (hbr : ((n.contains '[' && !n.contains ']') ||
            (n.contains ']' && !n.contains '[')) = false)
    (hw : ∀ a ∈ w, (a == '?') = false ∧ (a == '#') = false ∧ unsafeUrlByte a = false)
    (hq : ∀ a ∈ q, (a == '#') = false ∧ unsafeUrlByte a = false)
    (hf : ∀ a ∈ f, unsafeUrlByte a = false)
    (hstable : rejoinParams (splitParams (fixPath w)).1 (splitParams (fixPath w)).2
               = fixPath w) :
    urljoinChars CATEGORY_URL.toList (urlunsplitChars httpsChars n w q f)
      = some (urlunsplitChars httpsChars n w q f) := by
  have ho : (urlunsplitChars httpsChars n w q f).isEmpty = false := by
    rw [urlunsplit_form httpsChars n w q f rfl hn]
    rfl
  unfold urljoinChars
  rw [if_neg (by decide)]
  rw [if_neg (by simp [ho])]
  have hbase : urlparseChars CATEGORY_URL.toList [] =
      some ⟨httpsChars, "techcrunch.com".toList,
        "/category/artificial-intelligence/".toList, [], [], []⟩ := by decide
  rw [hbase]
  simp only [Option.pure_def, Option.bind_eq_bind, Option.some_bind]
  rw [reparse_parse n w q f _ hn hnl hbr hw hq hf]
  simp only [Option.some_bind]
  rw [if_neg (by decide)]
  rw [if_pos ⟨by decide, by simp [hn]⟩]
  rw [urlunparse_rejoin, hstable, urlunsplit_fixPath httpsChars n w q f rfl hn]

/-! ### Dot-segment resolution structure -/

theorem takeWhileStopIn {p : Char → Bool} : ∀ (l r : List Char), (∃ a ∈ l, p a = false) →
    (l ++ r).takeWhile p = l.takeWhile p
  | [], _, h => by
    rcases h with ⟨a, ha, _⟩
    cases ha
  | c :: l, r, h => by
    by_cases hc : p c = true
    · simp only [List.cons_append, List.takeWhile_cons, hc, if_true]
      rcases h with ⟨a, ha, hpa⟩
      rcases List.mem_cons.mp ha with rfl | ha
      · rw [hc] at hpa
        cases hpa
      · rw [takeWhileStopIn l r ⟨a, ha, hpa⟩]
    · have hc' : p c = false := by
        revert hc
        cases p c <;> simp
      simp [List.takeWhile_cons, hc']

theorem lastSlashSuffix_cons_slash (c : Char) (rest : List Char) (h : '/' ∈ rest) :
    lastSlashSuffix (c :: rest) = lastSlashSuffix rest := by
  unfold lastSlashSuffix
  rw [List.reverse_cons, takeWhileStopIn _ _ ⟨'/', List.mem_reverse.mpr h, by decide⟩]

theorem lastSlashSuffix_slash_cons (rest : List Char) :
    lastSlashSuffix ('/' :: rest) = lastSlashSuffix rest := by
  by_cases h : '/' ∈ rest
  · exact lastSlashSuffix_cons_slash '/' rest h
  · rw [lastSlashSuffix_no_slash rest h]
    unfold lastSlashSuffix
    rw [List.reverse_cons, takeWhileAll]
    · rw [show List.takeWhile (fun c => !(c == '/')) ['/'] = [] from rfl, List.append_nil,
        List.reverse_reverse]
    · intro a ha
      have ham := List.mem_reverse.mp ha
      have hne : a ≠ '/' := fun he => h (he ▸ ham)
      simpa using hne

theorem lastSlashSuffix_nonslash_cons (c : Char) (rest : List Char) (hc : c ≠ '/')
    (h : '/' ∉ rest) : lastSlashSuffix (c :: rest) = c :: rest := by
  apply lastSlashSuffix_no_slash
  intro hm
  rcases List.mem_cons.mp hm with he | hm
  · exact hc he.symm
  · exact h hm

theorem splitOnSlash_ne_nil : ∀ (v : List Char), splitOnSlash v ≠ []
  | [] => by simp [splitOnSlash]
  | c :: rest => by
    unfold splitOnSlash
    simp only
    split
    · simp
    · split <;> simp

theorem splitOnSlash_mem_char : ∀ (v s : List Char), s ∈ splitOnSlash v → ∀ a ∈ s, a ∈ v
  | [], s, hs, a, ha => by
    simp only [splitOnSlash, List.mem_singleton] at hs
    subst hs
    cases ha
  | c :: rest, s, hs, a, ha => by
    unfold splitOnSlash at hs
    simp only at hs
    split at hs
    · rcases List.mem_cons.mp hs with rfl | hs
      · cases ha
      · exact List.mem_cons_of_mem _ (splitOnSlash_mem_char rest s hs a ha)
    · split at hs
      · next s1 tail heq =>
        rcases List.mem_cons.mp hs with rfl | hs
        · rcases List.mem_cons.mp ha with rfl | ha
          · exact List.mem_cons_self _ _
          · have hs1 : s1 ∈ splitOnSlash rest := by
              rw [heq]
              exact List.mem_cons_self _ _
            exact List.mem_cons_of_mem _ (splitOnSlash_mem_char rest s1 hs1 a ha)
        · have hmem : s ∈ splitOnSlash rest := by
            rw [heq]
            exact List.mem_cons_of_mem _ hs
          exact List.mem_cons_of_mem _ (splitOnSlash_mem_char rest s hmem a ha)
      · rcases List.mem_cons.mp hs with rfl | hs
        · rcases List.mem_cons.mp ha with rfl | ha
          · exact List.mem_cons_self _ _
          · cases ha
        · cases hs

theorem splitOnSlash_no_slash : ∀ (v : List Char), '/' ∉ v → splitOnSlash v = [v]
  | [], _ => rfl
  | c :: rest, h => by
    unfold splitOnSlash
    simp only
    rw [if_neg (fun he => h (by rw [← he]; exact List.mem_cons_self _ _)),
      splitOnSlash_no_slash rest (fun hm => h (List.mem_cons_of_mem _ hm))]

theorem splitOnSlash_single : ∀ (v s : List Char), splitOnSlash v = [s] → s = v ∧ '/' ∉ v
  | [], s, h => by
    injection h with h1 _
    exact ⟨h1.symm, by simp⟩
  | c :: rest, s, h => by
    unfold splitOnSlash at h
    simp only at h
    split at h
    · injection h with _ h2
      exact absurd h2 (splitOnSlash_ne_nil rest)
    · next hcc =>
      split at h
      · next s1 tail heq =>
        injection h with h1 h2
        subst h2
        obtain ⟨hs1, hnos⟩ := splitOnSlash_single rest s1 heq
        subst hs1
        refine ⟨h1.symm, ?_⟩
        intro hm
        rcases List.mem_cons.mp hm with he | hm
        · exact hcc he.symm
        · exact hnos hm
      · next heq =>
        exact absurd heq (splitOnSlash_ne_nil rest)

theorem splitOnSlash_getLast : ∀ (v : List Char),
    (splitOnSlash v).getLast? = some (lastSlashSuffix v)
  | [] => rfl
  | c :: rest => by
    unfold splitOnSlash
    simp only
    by_cases hc : c = '/'
    · subst hc
      rw [if_pos rfl]
      obtain ⟨s1, tail, heq⟩ := List.exists_cons_of_ne_nil (splitOnSlash_ne_nil rest)
      rw [heq, List.getLast?_cons_cons, ← heq, splitOnSlash_getLast rest,
        lastSlashSuffix_slash_cons]
    · rw [if_neg hc]
      obtain ⟨s1, tail, heq⟩ := List.exists_cons_of_ne_nil (splitOnSlash_ne_nil rest)
      rw [heq]
      simp only
      cases tail with
      | nil =>
        obtain ⟨hs1v, hnos⟩ := splitOnSlash_single rest s1 heq
        subst hs1v
        rw [lastSlashSuffix_nonslash_cons c s1 hc hnos]
        rfl
      | cons s2 t2 =>
        rw [List.getLast?_cons_cons]
        have h2 : '/' ∈ rest := by
          by_contra hn
          rw [splitOnSlash_no_slash rest hn] at heq
          injection heq with _ hx
          cases hx
        rw [show (s2 :: t2).getLast? = (s1 :: s2 :: t2).getLast? from
            (List.getLast?_cons_cons).symm, ← heq, splitOnSlash_getLast rest,
          lastSlashSuffix_cons_slash c rest h2]

theorem filterMiddle_mem : ∀ (l : List (List Char)) (s : List Char), s ∈ filterMiddle l → s ∈ l
  | [], s, h => by cases h
  | [a], s, h => h
  | a :: b :: rest, s, h => by
    obtain ⟨z, hz⟩ : ∃ z, (b :: rest).getLast? = some z := by
      cases hgl : (b :: rest).getLast? with
      | none => simp at hgl
      | some z => exact ⟨z, rfl⟩
    simp only [filterMiddle, hz] at h
    rcases List.mem_append.mp h with h | h
    · rcases List.mem_cons.mp h with rfl | h
      · exact List.mem_cons_self _ _
      · have hm := (List.mem_filter.mp h).1
        exact List.mem_cons_of_mem _ (List.dropLast_subset _ hm)
    · rcases List.mem_singleton.mp h with rfl
      exact List.mem_cons_of_mem _ (List.mem_of_mem_getLast? hz)

theorem filterMiddle_getLast : ∀ (l : List (List Char)),
    (filterMiddle l).getLast? = l.getLast?
  | [] => rfl
  | [a] => rfl
  | a :: b :: rest => by
    obtain ⟨z, hz⟩ : ∃ z, (b :: rest).getLast? = some z := by
      cases hgl : (b :: rest).getLast? with
      | none => simp at hgl
      | some z => exact ⟨z, rfl⟩
    simp only [filterMiddle, hz]
    rw [List.getLast?_concat, List.getLast?_cons_cons, hz]

theorem resolveSegs_mem : ∀ (segs acc : List (List Char)) (s : List Char),
    s ∈ resolveSegs segs acc → s ∈ acc ∨ s ∈ segs
  | [], _, _, h => Or.inl h
  | s0 :: rest, acc, s, h => by
    unfold resolveSegs at h
    split at h
    · rcases resolveSegs_mem rest _ s h with h | h
      · exact Or.inl (List.dropLast_subset _ h)
      · exact Or.inr (List.mem_cons_of_mem _ h)
    · split at h
      · rcases resolveSegs_mem rest _ s h with h | h
        · exact Or.inl h
        · exact Or.inr (List.mem_cons_of_mem _ h)
      · rcases resolveSegs_mem rest _ s h with h | h
        · rcases List.mem_append.mp h with h | h
          · exact Or.inl h
          · rcases List.mem_singleton.mp h with rfl
            exact Or.inr (List.mem_cons_self _ _)
        · exact Or.inr (List.mem_cons_of_mem _ h)

theorem resolveSegs_getLast : ∀ (segs acc : List (List Char)) (s : List Char),
    segs.getLast? = some s → s ≠ ['.'] → s ≠ ['.', '.'] →
    (resolveSegs segs acc).getLast? = some s
  | [], _, s, h, _, _ => by cases h
  | [s0], acc, s, h, h1, h2 => by
    rw [List.getLast?_singleton] at h
    have hs := Option.some.inj h
    subst hs
    unfold resolveSegs
    rw [if_neg h2, if_neg h1]
    exact List.getLast?_concat acc
  | s0 :: s1 :: rest, acc, s, h, h1, h2 => by
    rw [List.getLast?_cons_cons] at h
    unfold resolveSegs
    split
    · exact resolveSegs_getLast (s1 :: rest) _ s h h1 h2
    · split
      · exact resolveSegs_getLast (s1 :: rest) _ s h h1 h2
      · exact resolveSegs_getLast (s1 :: rest) _ s h h1 h2

theorem joinSep_mem (sep : List Char) : ∀ (ps : List (List Char)) (a : Char),
    a ∈ joinSep sep ps → a ∈ sep ∨ ∃ s ∈ ps, a ∈ s
  | [], _, h => by cases h
  | [s], a, h => Or.inr ⟨s, List.mem_cons_self _ _, h⟩
  | s :: s2 :: rest, a, h => by
    rw [show joinSep sep (s :: s2 :: rest) = s ++ sep ++ joinSep sep (s2 :: rest) from rfl] at h
    rcases List.mem_append.mp h with h | h
    · rcases List.mem_append.mp h with h | h
      · exact Or.inr ⟨s, List.mem_cons_self _ _, h⟩
      · exact Or.inl h
    · rcases joinSep_mem sep (s2 :: rest) a h with h | ⟨t, ht, hat⟩
      · exact Or.inl h
      · exact Or.inr ⟨t, List.mem_cons_of_mem _ ht, hat⟩

theorem joinSep_getLast : ∀ (ps : List (List Char)) (c : Char),
    (joinSep ['/'] ps).getLast? = some c →
    c = '/' ∨ ∃ lp, ps.getLast? = some lp ∧ c ∈ lp
  | [], _, h => by cases h
  | [s], c, h => Or.inr ⟨s, rfl, List.mem_of_mem_getLast? h⟩
  | s :: s2 :: rest, c, h => by
    have heq : joinSep ['/'] (s :: s2 :: rest) = s ++ '/' :: joinSep ['/'] (s2 :: rest) := by
      rw [show joinSep ['/'] (s :: s2 :: rest) = s ++ ['/'] ++ joinSep ['/'] (s2 :: rest)
          from rfl, List.append_assoc]
      rfl
    rw [heq, List.getLast?_append_of_ne_nil _ (List.cons_ne_nil _ _)] at h
    cases hj : joinSep ['/'] (s2 :: rest) with
    | nil =>
      rw [hj, List.getLast?_singleton] at h
      exact Or.inl (Option.some.inj h).symm
    | cons x xs =>
      rw [hj, List.getLast?_cons_cons, ← hj] at h
      rcases joinSep_getLast (s2 :: rest) c h with h | ⟨lp, hlp, hclp⟩
      · exact Or.inl h
      · refine Or.inr ⟨lp, ?_, hclp⟩
        rw [List.getLast?_cons_cons]
        exact hlp

/-! ### Stability of the path/params round-trip -/

theorem fixPath_cases (u : List Char) : fixPath u = u ∨ fixPath u = '/' :: u := by
  unfold fixPath
  split
  · exact Or.inr rfl
  · exact Or.inl rfl

theorem fixPath_ne_nil (u : List Char) (hu : u ≠ []) : fixPath u ≠ [] := by
  unfold fixPath
  split
  · simp
  · exact hu

theorem rejoin_mem (p pr : List Char) (a : Char) (ha : a ∈ rejoinParams p pr) :
    a ∈ p ∨ a = ';' ∨ a ∈ pr := by
  unfold rejoinParams at ha
  split at ha
  · exact Or.inl ha
  · rcases List.mem_append.mp ha with h | h
    · exact Or.inl h
    · rcases List.mem_cons.mp h with rfl | h
      · exact Or.inr (Or.inl rfl)
      · exact Or.inr (Or.inr h)

theorem stable_no_params (p : List Char) (hp : p.getLast? ≠ some ';') :
    rejoinParams (splitParams (fixPath p)).1 (splitParams (fixPath p)).2 = fixPath p := by
  apply rejoin_splitParams
  left
  by_cases h0 : p = []
  · subst h0
    decide
  · rw [fixPath_getLast p h0]
    exact hp

theorem stable_params (p pr : List Char) (hpr : pr ≠ []) (hprs : ∀ a ∈ pr, a ≠ '/') :
    rejoinParams (splitParams (fixPath (p ++ ';' :: pr))).1
      (splitParams (fixPath (p ++ ';' :: pr))).2 = fixPath (p ++ ';' :: pr) := by
  apply rejoin_splitParams
  right
  have hy : '/' ∉ ';' :: pr := by
    intro hm
    rcases List.mem_cons.mp hm with he | hm
    · cases he
    · exact hprs '/' hm rfl
  rcases fixPath_cases (p ++ ';' :: pr) with he | he
  · refine ⟨p, pr, he, hpr, hy, ?_⟩
    rcases fixPath_shape (p ++ ';' :: pr) with h0 | ⟨t, ht⟩
    · exact absurd h0 (fixPath_ne_nil _ (by simp))
    · rw [he] at ht
      cases p with
      | nil =>
        rw [List.nil_append] at ht
        injection ht with h1 _
        cases h1
      | cons c p' =>
        rw [List.cons_append] at ht
        injection ht with h1 _
        rw [h1]
        exact List.mem_cons_self _ _
  · exact ⟨'/' :: p, pr, by rw [he]; rfl, hpr, hy, List.mem_cons_self _ _⟩

theorem stable_rejoin (p pr : List Char) (hpl : p.getLast? ≠ some ';')
    (hprs : ∀ a ∈ pr, a ≠ '/') :
    rejoinParams (splitParams (fixPath (rejoinParams p pr))).1
      (splitParams (fixPath (rejoinParams p pr))).2 = fixPath (rejoinParams p pr) := by
  by_cases hpr : pr.isEmpty = true
  · rw [show rejoinParams p pr = p from by unfold rejoinParams; rw [if_pos hpr]]
    exact stable_no_params p hpl
  · rw [show rejoinParams p pr = p ++ ';' :: pr from by unfold rejoinParams; rw [if_neg hpr]]
    exact stable_params p pr (fun h => hpr (by rw [h]; rfl)) hprs

theorem segments_getLast (bparts : List (List Char)) (upath : List Char) :
    (filterMiddle (bparts ++ splitOnSlash upath)).getLast? =
      some (lastSlashSuffix upath) := by
  rw [filterMiddle_getLast, List.getLast?_append_of_ne_nil _ (splitOnSlash_ne_nil upath),
    splitOnSlash_getLast]

theorem path2_no_semi_end (segments : List (List Char)) (ls : List Char)
    (hlast : segments.getLast? = some ls) (hsemi : ';' ∉ ls) :
    (if (joinSep ['/']
          (if segments.getLast? = some ['.'] ∨ segments.getLast? = some ['.', '.']
            then resolveSegs segments [] ++ [([] : List Char)]
            else resolveSegs segments [])).isEmpty = true
      then ['/']
      else joinSep ['/']
          (if segments.getLast? = some ['.'] ∨ segments.getLast? = some ['.', '.']
            then resolveSegs segments [] ++ [([] : List Char)]
            else resolveSegs segments [])).getLast? ≠ some ';' := by
  by_cases hd : segments.getLast? = some ['.'] ∨ segments.getLast? = some ['.', '.']
  · simp only [if_pos hd]
    intro hcon
    split at hcon
    · rw [List.getLast?_singleton] at hcon
      exact absurd (Option.some.inj hcon) (by decide)
    · rcases joinSep_getLast _ ';' hcon with h | ⟨lp, hlp, hmem⟩
      · exact absurd h (by decide)
      · rw [List.getLast?_concat] at hlp
        have hlpe : lp = [] := (Option.some.inj hlp).symm
        rw [hlpe] at hmem
        cases hmem
  · simp only [if_neg hd]
    intro hcon
    split at hcon
    · rw [List.getLast?_singleton] at hcon
      exact absurd (Option.some.inj hcon) (by decide)
    · rcases joinSep_getLast _ ';' hcon with h | ⟨lp, hlp, hmem⟩
      · exact absurd h (by decide)
      · have hne1 : ls ≠ ['.'] := fun he => hd (Or.inl (he ▸ hlast))
        have hne2 : ls ≠ ['.', '.'] := fun he => hd (Or.inr (he ▸ hlast))
        rw [resolveSegs_getLast segments [] ls hlast hne1 hne2] at hlp
        exact hsemi (by rw [Option.some.inj hlp]; exact hmem)

theorem joined_mem (segments resolved : List (List Char))
    (hres : resolved = resolveSegs segments [] ++ [([] : List Char)] ∨
            resolved = resolveSegs segments [])
    (a : Char) (ha : a ∈ joinSep ['/'] resolved) :
    a = '/' ∨ ∃ s ∈ segments, a ∈ s := by
  rcases joinSep_mem ['/'] resolved a ha with h | ⟨s, hs, has⟩
  · exact Or.inl (List.mem_singleton.mp h)
  · rcases hres with hr | hr
    · rw [hr] at hs
      rcases List.mem_append.mp hs with hs | hs
      · rcases resolveSegs_mem segments [] s hs with h0 | h0
        · cases h0
        · exact Or.inr ⟨s, h0, has⟩
      · rcases List.mem_singleton.mp hs with rfl
        cases has
    · rw [hr] at hs
      rcases resolveSegs_mem segments [] s hs with h0 | h0
      · cases h0
      · exact Or.inr ⟨s, h0, has⟩

theorem segments_chars (bpath upath : List Char) (bparts : List (List Char))
    (hbp : bparts = (splitOnSlash bpath).dropLast ∨ bparts = splitOnSlash bpath)
    (s : List Char) (hs : s ∈ filterMiddle (bparts ++ splitOnSlash upath))
    (a : Char) (has : a ∈ s) : a ∈ bpath ∨ a ∈ upath := by
  have hs2 := filterMiddle_mem _ s hs
  rcases List.mem_append.mp hs2 with h | h
  · left
    rcases hbp with hb | hb
    · rw [hb] at h
      exact splitOnSlash_mem_char bpath s (List.dropLast_subset _ h) a has
    · rw [hb] at h
      exact splitOnSlash_mem_char bpath s h a has
  · exact Or.inr (splitOnSlash_mem_char upath s h a has)

theorem path2_mem (segments : List (List Char)) (a : Char)
    (ha : a ∈ (if (joinSep ['/']
          (if segments.getLast? = some ['.'] ∨ segments.getLast? = some ['.', '.']
            then resolveSegs segments [] ++ [([] : List Char)]
            else resolveSegs segments [])).isEmpty = true
      then ['/']
      else joinSep ['/']
          (if segments.getLast? = some ['.'] ∨ segments.getLast? = some ['.', '.']
            then resolveSegs segments [] ++ [([] : List Char)]
            else resolveSegs segments []))) :
    a = '/' ∨ ∃ s ∈ segments, a ∈ s := by
  by_cases hd : segments.getLast? = some ['.'] ∨ segments.getLast? = some ['.', '.']
  · simp only [if_pos hd] at ha
    split at ha
    · exact Or.inl (List.mem_singleton.mp ha)
    · exact joined_mem segments _ (Or.inl rfl) a ha
  · simp only [if_neg hd] at ha
    split at ha
    · exact Or.inl (List.mem_singleton.mp ha)
    · exact joined_mem segments _ (Or.inr rfl) a ha

/-! ### urljoin is a closure operator on the crawl's base URL -/

theorem cat_parse : urlparseChars CATEGORY_URL.toList [] =
    some ⟨httpsChars, "techcrunch.com".toList,
      "/category/artificial-intelligence/".toList, [], [], []⟩ := by decide

theorem tn_chars : ∀ a ∈ "techcrunch.com".toList,
    netlocStop a = false ∧ unsafeUrlByte a = false := by
  intro a ha
  have h := List.all_eq_true.mp
    (by decide : ("techcrunch.com".toList).all
      (fun a => !netlocStop a && !unsafeUrlByte a) = true) a ha
  simp only [Bool.and_eq_true, Bool.not_eq_true'] at h
  exact h

theorem bp_chars : ∀ a ∈ "/category/artificial-intelligence/".toList,
    (a == '?') = false ∧ (a == '#') = false ∧ unsafeUrlByte a = false := by
  intro a ha
  have h := List.all_eq_true.mp
    (by decide : ("/category/artificial-intelligence/".toList).all
      (fun a => !(a == '?') && (!(a == '#') && !unsafeUrlByte a)) = true) a ha
  simp only [Bool.and_eq_true, Bool.not_eq_true'] at h
  exact ⟨h.1, h.2.1, h.2.2⟩

theorem ujfix (hs o : List Char)
    (h : urljoinChars CATEGORY_URL.toList hs = some o) :
    urljoinChars CATEGORY_URL.toList o = some o := by
  unfold urljoinChars at h
  rw [if_neg (by decide : ¬(CATEGORY_URL.toList.isEmpty = true))] at h
  by_cases hhs : hs.isEmpty = true
  · rw [if_pos hhs] at h
    injection h with h'
    subst h'
    decide
  · rw [if_neg hhs] at h
    simp only [Option.pure_def, Option.bind_eq_bind, Option.some_bind] at h
    rw [cat_parse] at h
    simp only [Option.some_bind] at h
    cases hu : urlparseChars hs httpsChars with
    | none =>
      rw [hu] at h
      exact Option.noConfusion h
    | some u =>
      rw [hu] at h
      simp only [Option.some_bind] at h
      obtain ⟨hn8, hp8, hpr8, hq8, hf8, hbr8, hple8, hreg8⟩ := urlparse_inv hs httpsChars u hu
      by_cases hcond : u.scheme = httpsChars ∧ usesRelative.contains u.scheme = true
      · rw [if_neg (not_not_intro hcond)] at h
        obtain ⟨hsch, hrel⟩ := hcond
        by_cases hnet : u.netloc.isEmpty = true
        · rw [if_neg (fun hc => hc.2 hnet)] at h
          rw [hsch] at h
          rw [if_pos (by decide : usesNetloc.contains httpsChars = true)] at h
          by_cases hpp : u.path.isEmpty = true ∧ u.params.isEmpty = true
          · rw [if_pos hpp] at h
            injection h with h'
            subst h'
            rw [urlunparse_rejoin,
              show rejoinParams ("/category/artificial-intelligence/".toList)
                ([] : List Char) = "/category/artificial-intelligence/".toList from rfl]
            apply reparse_fixed
            · decide
            · exact tn_chars
            · decide
            · exact bp_chars
            · intro a ha
              split at ha
              · cases ha
              · exact hq8 a ha
            · exact hf8
            · decide
          · rw [if_neg hpp] at h
            rw [if_neg (by decide :
              ¬¬((splitOnSlash ("/category/artificial-intelligence/".toList)).getLast?
                = some []))] at h
            by_cases habs : u.path.head? = some '/'
            · rw [if_pos habs] at h
              injection h with h'
              subst h'
              rw [urlunparse_rejoin]
              have hlast := splitOnSlash_getLast u.path
              apply reparse_fixed
              · decide
              · exact tn_chars
              · decide
              · intro a ha
                rcases rejoin_mem _ u.params a ha with hpa | rfl | hpa
                · rcases path2_mem (splitOnSlash u.path) a hpa with rfl | ⟨s, hsm, has⟩
                  · exact ⟨by decide, by decide, by decide⟩
                  · exact hp8 a (splitOnSlash_mem_char u.path s hsm a has)
                · exact ⟨by decide, by decide, by decide⟩
                · exact ⟨(hpr8 a hpa).1, (hpr8 a hpa).2.1, (hpr8 a hpa).2.2.1⟩
              · exact hq8
              · exact hf8
              · exact stable_rejoin _ u.params
                  (path2_no_semi_end (splitOnSlash u.path) (lastSlashSuffix u.path)
                    hlast hreg8)
                  (fun a ha => (hpr8 a ha).2.2.2)
            · rw [if_neg habs] at h
              injection h with h'
              subst h'
              rw [urlunparse_rejoin]
              have hlast := segments_getLast
                (splitOnSlash ("/category/artificial-intelligence/".toList)) u.path
              apply reparse_fixed
              · decide
              · exact tn_chars
              · decide
              · intro a ha
                rcases rejoin_mem _ u.params a ha with hpa | rfl | hpa
                · rcases path2_mem
                      (filterMiddle (splitOnSlash ("/category/artificial-intelligence/".toList)
                        ++ splitOnSlash u.path)) a hpa with rfl | ⟨s, hsm, has⟩
                  · exact ⟨by decide, by decide, by decide⟩
                  · rcases segments_chars ("/category/artificial-intelligence/".toList)
                      u.path _ (Or.inr rfl) s hsm a has with hb | hup
                    · exact bp_chars a hb
                    · exact hp8 a hup
                · exact ⟨by decide, by decide, by decide⟩
                · exact ⟨(hpr8 a hpa).1, (hpr8 a hpa).2.1, (hpr8 a hpa).2.2.1⟩
              · exact hq8
              · exact hf8
              · exact stable_rejoin _ u.params
                  (path2_no_semi_end
                    (filterMiddle (splitOnSlash ("/category/artificial-intelligence/".toList)
                      ++ splitOnSlash u.path)) (lastSlashSuffix u.path) hlast hreg8)
                  (fun a ha => (hpr8 a ha).2.2.2)
        · rw [if_pos ⟨by rw [hsch]; decide, hnet⟩] at h
          injection h with h'
          subst h'
          rw [hsch, urlunparse_rejoin]
          apply reparse_fixed
          · exact eq_false_of_ne_true hnet
          · exact hn8
          · exact hbr8
          · intro a ha
            rcases rejoin_mem u.path u.params a ha with hpa | rfl | hpa
            · exact hp8 a hpa
            · exact ⟨by decide, by decide, by decide⟩
            · exact ⟨(hpr8 a hpa).1, (hpr8 a hpa).2.1, (hpr8 a hpa).2.2.1⟩
          · exact hq8
          · exact hf8
          · exact stable_rejoin u.path u.params hple8 (fun a ha => (hpr8 a ha).2.2.2)
      · rw [if_pos hcond] at h
        injection h with h'
        subst h'
        unfold urljoinChars
        rw [if_neg (by decide : ¬(CATEGORY_URL.toList.isEmpty = true)), if_neg hhs]
        simp only [Option.pure_def, Option.bind_eq_bind, Option.some_bind]
        rw [cat_parse]
        simp only [Option.some_bind]
        rw [hu]
        simp only [Option.some_bind]
        rw [if_pos hcond]

/-- C9 (counterexample): a single application of `normalize_link` is not the
identity on every already-absolute URL: `urlsplit` lowercases the scheme, so
the absolute URL `HTTPS://TECHCRUNCH.COM/2025/09/10/foo` is rewritten to
`https://TECHCRUNCH.COM/2025/09/10/foo` rather than returned unchanged. -/
theorem C9_counterexample :
    normalize_link "HTTPS://TECHCRUNCH.COM/2025/09/10/foo"
        = some "https://TECHCRUNCH.COM/2025/09/10/foo" ∧
    normalize_link "HTTPS://TECHCRUNCH.COM/2025/09/10/foo"
        ≠ some "HTTPS://TECHCRUNCH.COM/2025/09/10/foo" := by
  decide

/-- C9 (amended): `normalize_link` is idempotent on its own outputs: whenever
`normalize_link href = some o`, a second application returns `o` unchanged.
Moreover a nonempty absolute URL whose parsed scheme differs from the base's
`https` (or is outside `uses_relative`) is returned verbatim by a single
application. -/
theorem C9_idempotence :
    (∀ href o : String, normalize_link href = some o → normalize_link o = some o) ∧
    (∀ (u : String) (r : UrlParseResult), u ≠ "" →
      urlparseChars u.toList httpsChars = some r →
      ¬(r.scheme = httpsChars ∧ usesRelative.contains r.scheme = true) →
      normalize_link u = some u) := by
  constructor
  · intro href o h
    unfold normalize_link at h ⊢
    cases hj : urljoinChars CATEGORY_URL.toList href.toList with
    | none =>
      rw [hj] at h
      cases h
    | some l =>
      rw [hj] at h
      simp only [Option.map_some', Option.some.injEq] at h
      subst h
      rw [show (String.mk l).toList = l from rfl, ujfix href.toList l hj]
      rfl
  · intro u r hne hr hcond
    have hni : u.toList.isEmpty = false := by
      cases he : u.toList.isEmpty
      · rfl
      · exfalso
        apply hne
        have h0 : u.toList = [] := List.isEmpty_iff.mp he
        cases u with
        | mk d =>
          simp only [String.toList] at h0
          rw [h0]
    unfold normalize_link urljoinChars
    rw [if_neg (by decide : ¬(CATEGORY_URL.toList.isEmpty = true)),
      if_neg (fun hc => by rw [hni] at hc; cases hc)]
    simp only [Option.pure_def, Option.bind_eq_bind, Option.some_bind]
    rw [cat_parse]
    simp only [Option.some_bind]
    rw [hr]
    simp only [Option.some_bind]
    rw [if_pos hcond]
    rfl

/-- C9 witness: a relative href normalizes to an absolute URL that is a fixed
point of `normalize_link`, and an `ftp`-scheme absolute URL passes through
unchanged. -/
theorem C9_witness :
    normalize_link "https://techcrunch.com/2025/09/10/foo"
        = some "https://techcrunch.com/2025/09/10/foo" ∧
    normalize_link "ftp://example.com/a" = some "ftp://example.com/a" :=
  ⟨C9_idempotence.1 "/2025/09/10/foo" "https://techcrunch.com/2025/09/10/foo" (by decide),
   C9_idempotence.2 "ftp://example.com/a"
     ⟨"ftp".toList, "example.com".toList, "/a".toList, [], [], []⟩
     (by decide) (by decide) (by decide)⟩

end Crawler
